import Mathlib

/-!
Shallow embedding of `tianshou/policy/multiagent/mapolicy.py`
(`MultiAgentPolicyManager`) and proofs about its dispatch operations.

The `Batch` / `ReplayBuffer` containers live outside the sources at hand;
they are modelled from the specification's interface description
(order-preserving index-subsequence slicing, concatenation, a mutable
reward field that is either an empty placeholder, a 1-D array or a 2-D
array, and standard array indexing that faults on an out-of-range index).
Python list indexing (negative indices wrap) is modelled by `pyIdx`.
Sub-policies are opaque records of functions, one field per capability.
-/

namespace MAPolicy

/-- Python list/array index resolution: a non-negative index must be
strictly below the length, a negative index wraps once from the end;
anything else is an `IndexError` (`none`). -/
def pyIdx (i : Int) (n : Nat) : Option Nat :=
  if 0 ≤ i ∧ i < (n : Int) then some i.toNat
  else if -(n : Int) ≤ i ∧ i < 0 then some ((n : Int) + i).toNat
  else none

/-- Python-style element read. -/
def pyGet (l : List α) (i : Int) : Option α :=
  match pyIdx i l.length with
  | some k => l.get? k
  | none => none

/-- Python-style element write (`l[i] = a`); `none` models the raised
`IndexError`, in which case the list is untouched. -/
def pySet (l : List α) (i : Int) (a : α) : Option (List α) :=
  match pyIdx i l.length with
  | some k => some (l.set k a)
  | none => none

/-- Order-preserving slice by an index subsequence (`l[idx]` with every
index in range; out-of-range positions cannot arise at the call sites,
where the indices come from `np.nonzero`). -/
def sliceList (l : List α) (idx : List Nat) : List α :=
  idx.filterMap (fun i => l.get? i)

/-- Positional scatter `arr[idx] = vals` (numpy fancy assignment with
matching lengths); `none` models the raised `IndexError`. -/
def scatter : List Int → List Nat → List Int → Option (List Int)
  | arr, [], [] => some arr
  | arr, i :: is, v :: vs =>
      if i < arr.length then scatter (arr.set i v) is vs else none
  | _, _, _ => none

/-- The reward field of a batch or buffer: an empty `Batch()` placeholder
(after initial reset), a 1-D `np.ndarray`, or a 2-D `np.ndarray` with one
column per agent. -/
inductive Rew where
  | emptyB : Rew
  | arr1 : List Int → Rew
  | arr2 : List (List Int) → Rew
deriving DecidableEq, Repr

/-- `isinstance(rew, np.ndarray)`. -/
def Rew.isArr : Rew → Bool
  | .emptyB => false
  | .arr1 _ => true
  | .arr2 _ => true

/-- `m[:, j]` on a 2-D array: the `j`-th entry of every row; raises
(`none`) as soon as some row lacks that column. -/
def colGet : List (List Int) → Int → Option (List Int)
  | [], _ => some []
  | row :: rest, j =>
    match pyGet row j, colGet rest j with
    | some c, some cs => some (c :: cs)
    | _, _ => none

/-- Column extraction `rew[:, j]`: only defined on a 2-D array; a 1-D
array or the empty placeholder raises (`none`). -/
def Rew.col : Rew → Int → Option (List Int)
  | .arr2 m, j => colGet m j
  | _, _ => none

/-- Slicing the reward field by an index subsequence. -/
def Rew.slice : Rew → List Nat → Rew
  | .emptyB, _ => .emptyB
  | .arr1 v, idx => .arr1 (sliceList v idx)
  | .arr2 m, idx => .arr2 (sliceList m idx)

/-- The portion of a transition batch the dispatcher inspects: the
per-transition agent tag `obs.agent_id` and the reward field. -/
structure Batch where
  tags : List Int
  rew : Rew
deriving Repr

/-- `batch[agent_index]`: order-preserving slice of every field. -/
def Batch.slice (b : Batch) (idx : List Nat) : Batch :=
  ⟨sliceList b.tags idx, b.rew.slice idx⟩

/-- The reward-bearing replay buffer (only its `rew` field matters to the
dispatcher). -/
structure Buffer where
  rew : Rew
deriving DecidableEq, Repr

/-- A sub-policy's `forward` output: the action values and the optional
output state (`out.state`, absent modelled as `none`). -/
structure PolicyOut where
  act : List Int
  state : Option Int

/-- An opaque sub-policy: its assigned agent id plus one function per
capability consumed by the manager. -/
structure SubPolicy where
  agent_id : Int
  fwd : Batch → Option Int → PolicyOut
  proc : Batch → Buffer → List Int → Except String (List Int)
  learnFn : List Int → List (String × Int)
  expl : List Int → Batch → List Int

/-- The dict key `f"agent_{agent_id}"`. -/
def agentKey (aid : Int) : String := "agent_" ++ toString aid

/-- `np.nonzero(batch.obs.agent_id == agent_id)[0]`: the ordered list of
positions whose tag equals `agent_id`. -/
def agentIndex (tags : List Int) (aid : Int) : List Nat :=
  (List.range tags.length).filter (fun i => tags.getD i 0 = aid)

/-- `MultiAgentPolicyManager.__init__`: assign agent ids 1..N in list
order. -/
def initPolicies (ps : List SubPolicy) : List SubPolicy :=
  ps.mapIdx (fun i p => { p with agent_id := (i : Int) + 1 })

/-- `MultiAgentPolicyManager.replace_policy`: `self.policies[agent_id - 1]
= policy; policy.set_agent_id(agent_id)`.  `none` models the raised
`IndexError` (registry untouched). -/
def replace_policy (policies : List SubPolicy) (p : SubPolicy)
    (agent_id : Int) : Option (List SubPolicy) :=
  pySet policies (agent_id - 1) { p with agent_id := agent_id }

/-- The registry invariant: each policy's assigned agent id equals its
registry position plus one. -/
def PolicyInv (ps : List SubPolicy) : Prop :=
  ∀ i (h : i < ps.length), (ps.get ⟨i, h⟩).agent_id = (i : Int) + 1

/-- State lookup `None if state is None else state["agent_" + str(id)]`;
the input state mapping, when present, is total over the agent keys (as
the `forward` docstring requires). -/
def stateFor (state : Option (Int → Option Int)) (aid : Int) : Option Int :=
  match state with
  | none => none
  | some f => f aid

/-- `process_fn`'s loop body for one policy, threading the buffer and the
results list; an `error` carries the buffer state at the moment the
exception propagates. -/
def procLoop (hasRew : Bool) (saveRew : Rew) (batch : Batch)
    (indices : List Int) :
    List SubPolicy → Buffer →
      Except (String × Buffer) (List (String × List Int) × Buffer)
  | [], buf => .ok ([], buf)
  | p :: ps, buf =>
    let ai := agentIndex batch.tags p.agent_id
    if ai.isEmpty then
      match procLoop hasRew saveRew batch indices ps buf with
      | .ok (rest, buf') => .ok ((agentKey p.agent_id, []) :: rest, buf')
      | .error e => .error e
    else
      let tmp := batch.slice ai
      let tmpIdx := sliceList indices ai
      match (if hasRew then (tmp.rew.col (p.agent_id - 1)).map some
             else some none) with
      | none => .error ("IndexError", buf)
      | some tmpCol =>
        let tmp' : Batch := match tmpCol with
          | some c => { tmp with rew := .arr1 c }
          | none => tmp
        match (if hasRew then (saveRew.col (p.agent_id - 1)).map some
               else some none) with
        | none => .error ("IndexError", buf)
        | some bufCol =>
          let buf' : Buffer := match bufCol with
            | some c => { buf with rew := .arr1 c }
            | none => buf
          match p.proc tmp' buf' tmpIdx with
          | .error e => .error (e, buf')
          | .ok r =>
            match procLoop hasRew saveRew batch indices ps buf' with
            | .ok (rest, buf'') => .ok ((agentKey p.agent_id, r) :: rest, buf'')
            | .error e => .error e

/-- `MultiAgentPolicyManager.process_fn`: save the multi-dimensional
reward, set the buffer reward to `Batch()`, dispatch per agent with the
scalar column views, restore the saved reward at the end of the loop. -/
def process_fn (policies : List SubPolicy) (batch : Batch) (buffer : Buffer)
    (indices : List Int) :
    Except (String × Buffer) (List (String × List Int) × Buffer) :=
  let hasRew := buffer.rew.isArr
  let saveRew := buffer.rew
  let buf0 := if hasRew then { buffer with rew := .emptyB } else buffer
  match procLoop hasRew saveRew batch indices policies buf0 with
  | .error e => .error e
  | .ok (res, buf1) =>
      .ok (res, if hasRew then { buf1 with rew := saveRew } else buf1)

/-- One record of `forward`'s `results` list:
`(has_data, agent_index, out, act, state)`.  The sentinel
`np.array([-1])` stored for an empty partition is never read (it is
guarded by `has_data`), so it is modelled as `[]`. -/
structure FwdEntry where
  has_data : Bool
  agent_index : List Nat
  out : Option PolicyOut
  act : List Int
  each_state : Option Int

/-- Slice of the caller batch handed to a sub-policy in `forward`: the
reward column is extracted when the sliced reward is an ndarray
(`if isinstance(tmp_batch.rew, np.ndarray): tmp_batch.rew =
tmp_batch.rew[:, agent_id - 1]`). -/
def fwdSlice (batch : Batch) (ai : List Nat) (aid : Int) : Option Batch :=
  if (batch.slice ai).rew.isArr then
    ((batch.slice ai).rew.col (aid - 1)).map
      (fun c => { batch.slice ai with rew := .arr1 c })
  else some (batch.slice ai)

/-- `forward`'s first loop for one policy. -/
def fwdOne (p : SubPolicy) (batch : Batch)
    (state : Option (Int → Option Int)) : Option FwdEntry :=
  let ai := agentIndex batch.tags p.agent_id
  if ai.isEmpty then some ⟨false, [], none, [], none⟩
  else
    match fwdSlice batch ai p.agent_id with
    | none => none
    | some tmp =>
      let out := p.fwd tmp (stateFor state p.agent_id)
      some ⟨true, ai, some out, out.act, out.state⟩

/-- `forward`'s first loop over all policies (an exception in one
iteration aborts the call). -/
def collectEntries (batch : Batch) (state : Option (Int → Option Int)) :
    List SubPolicy → Option (List FwdEntry)
  | [] => some []
  | p :: ps =>
    match fwdOne p batch state, collectEntries batch state ps with
    | some e, some es => some (e :: es)
    | _, _ => none

/-- The `holder.act[agent_index] = act` scatter loop over the entries. -/
def scatterPhase : List Int → List FwdEntry → Option (List Int)
  | act, [] => some act
  | act, e :: es =>
    if e.has_data then
      match scatter act e.agent_index e.act with
      | some act' => scatterPhase act' es
      | none => none
    else scatterPhase act es

/-- The result of `MultiAgentPolicyManager.forward`. -/
structure ForwardOut where
  act : List Int
  state_dict : List (String × Option Int)
  out_dict : List (String × Option PolicyOut)

/-- `MultiAgentPolicyManager.forward`: collect per-agent outputs,
concatenate the action arrays of the agents that had data
(`Batch.cat`), scatter each agent's actions back to its original
positions, and attach the keyed state/output mappings. -/
def forward (policies : List SubPolicy) (batch : Batch)
    (state : Option (Int → Option Int)) : Option ForwardOut :=
  match collectEntries batch state policies with
  | none => none
  | some entries =>
    let holder := ((entries.filter (·.has_data)).map (·.act)).flatten
    match scatterPhase holder entries with
    | none => none
    | some finalAct =>
      some { act := finalAct
             state_dict := (policies.zip entries).map
               (fun pe => (agentKey pe.1.agent_id, pe.2.each_state))
             out_dict := (policies.zip entries).map
               (fun pe => (agentKey pe.1.agent_id, pe.2.out)) }

/-- `MultiAgentPolicyManager.exploration_noise`'s loop:
`act[agent_index] = policy.exploration_noise(act[agent_index],
batch[agent_index])` for each policy with a non-empty partition. -/
def explLoop (batch : Batch) : List SubPolicy → List Int → Option (List Int)
  | [], act => some act
  | p :: ps, act =>
    let ai := agentIndex batch.tags p.agent_id
    if ai.isEmpty then explLoop batch ps act
    else
      match scatter act ai (p.expl (sliceList act ai) (batch.slice ai)) with
      | some act' => explLoop batch ps act'
      | none => none

/-- `MultiAgentPolicyManager.exploration_noise`. -/
def exploration_noise (policies : List SubPolicy) (act : List Int)
    (batch : Batch) : Option (List Int) :=
  explLoop batch policies act

/-- `MultiAgentPolicyManager.learn`: look up each policy's entry in the
keyed input, skip empty entries, otherwise delegate to the sub-policy's
`learn` and re-key each metric as `"agent_{id}/{name}"`.  `none` models
the `KeyError` raised by a missing key. -/
def learnM : List SubPolicy → List (String × List Int) →
    Option (List (String × Int))
  | [], _ => some []
  | p :: ps, input =>
    match input.lookup (agentKey p.agent_id) with
    | none => none
    | some data =>
      match learnM ps input with
      | none => none
      | some rest =>
        if data.isEmpty then some rest
        else
          some (((p.learnFn data).map
            (fun kv => (agentKey p.agent_id ++ "/" ++ kv.1, kv.2))) ++ rest)

/-- The number of batch positions whose agent tag matches some registered
policy. -/
def matchedCount (policies : List SubPolicy) (tags : List Int) : Nat :=
  ((List.range tags.length).filter
    (fun i => tags.getD i 0 ∈ policies.map (fun p => p.agent_id))).length

/-- The data model's reward shape: absent, or one column per agent (rows
at least as wide as the number of registered policies). -/
def RewOkB (r : Rew) (n : Nat) : Prop :=
  r = .emptyB ∨ ∃ m, r = .arr2 m ∧ ∀ row ∈ m, n ≤ row.length

/-! ### Concrete sub-policies and scenarios used to instantiate the
theorems -/

/-- A concrete opaque sub-policy parameterized by a constant `c`: its
`forward` answers `c` for every transition, its `process_fn` records the
sliced tags shifted by `c` followed by the sliced indices, its `learn`
reports one metric, and its `exploration_noise` shifts each action
by `c`. -/
def cP (c : Int) : SubPolicy :=
  { agent_id := 0
    fwd := fun b _ => ⟨b.tags.map (fun _ => c), some c⟩
    proc := fun b _ idx => .ok (b.tags.map (fun t => t + c) ++ idx)
    learnFn := fun d => [("loss", d.sum + c)]
    expl := fun a _ => a.map (fun x => x + c) }

/-- A sub-policy whose `process_fn` always raises. -/
def pFail : SubPolicy := { cP 0 with proc := fun _ _ _ => .error "boom" }

/-- Two registered policies (agent ids 1 and 2). -/
def psW : List SubPolicy := initPolicies [cP 10, cP 20]

/-- One registered policy (agent id 1). -/
def psOne : List SubPolicy := initPolicies [cP 10]

/-- The spec's concrete scenario: six transitions with agent tags
`[1, 2, 1, 2, 1, 2]`. -/
def batchW : Batch := ⟨[1, 2, 1, 2, 1, 2], .emptyB⟩

/-- One registered failing policy (agent id 1). -/
def psF : List SubPolicy := initPolicies [pFail]

/-- A two-transition batch with a two-column reward matrix. -/
def batchR : Batch := ⟨[1, 2], .arr2 [[3, 4], [5, 6]]⟩

/-- A buffer holding the same two-column reward matrix. -/
def bufR : Buffer := ⟨.arr2 [[3, 4], [5, 6]]⟩

/-- The keyed result of `process_fn psW ⟨[1], emptyB⟩ ⟨emptyB⟩ [0]`. -/
def resW8 : List (String × List Int) := [("agent_1", [11, 0]), ("agent_2", [])]

/-- A keyed `process_fn`-style result with an empty entry for agent 2. -/
def inputW : List (String × List Int) := [("agent_1", [5]), ("agent_2", [])]

/-! ### Basic lemmas on the container helpers -/

theorem pyIdx_of_lt {i : Int} {n : Nat} (h0 : 0 ≤ i) (h1 : i < (n : Int)) :
    pyIdx i n = some i.toNat := by
  simp [pyIdx, h0, h1]

theorem pyGet_isSome {l : List α} {i : Int} (h0 : 0 ≤ i)
    (h1 : i < (l.length : Int)) : (pyGet l i).isSome := by
  rw [pyGet, pyIdx_of_lt h0 h1]
  have : i.toNat < l.length := by omega
  simp [List.get?_eq_getElem?, List.getElem?_eq_getElem this]

theorem sliceList_length {l : List α} : ∀ {idx : List Nat},
    (∀ i ∈ idx, i < l.length) → (sliceList l idx).length = idx.length := by
  intro idx
  induction idx with
  | nil => intro _; rfl
  | cons i is ih =>
    intro h
    have hi : i < l.length := h i (by simp)
    rw [sliceList, List.filterMap_cons, List.get?_eq_get hi]
    simpa [sliceList] using ih (fun j hj => h j (by simp [hj]))

theorem sliceList_get? {l : List α} : ∀ {idx : List Nat},
    (∀ i ∈ idx, i < l.length) → ∀ j (hj : j < idx.length),
      (sliceList l idx).get? j = l.get? (idx.get ⟨j, hj⟩) := by
  intro idx
  induction idx with
  | nil => intro _ j hj; simp at hj
  | cons i is ih =>
    intro h j hj
    have hi : i < l.length := h i (by simp)
    rw [sliceList, List.filterMap_cons, List.get?_eq_get hi]
    cases j with
    | zero => simp [List.get?_eq_get hi]
    | succ j =>
      have := ih (fun k hk => h k (by simp [hk])) j (by simpa using hj)
      simpa [sliceList] using this

theorem sliceList_mem {l : List α} {idx : List Nat} {x : α}
    (h : x ∈ sliceList l idx) : x ∈ l := by
  rw [sliceList] at h
  obtain ⟨i, _, hget⟩ := List.mem_filterMap.1 h
  exact List.get?_mem hget

theorem scatter_length : ∀ {idx : List Nat} {vals arr r : List Int},
    scatter arr idx vals = some r → r.length = arr.length := by
  intro idx
  induction idx with
  | nil =>
    intro vals arr r h
    cases vals with
    | nil =>
      simp only [scatter, Option.some.injEq] at h
      rw [← h]
    | cons v vs => simp [scatter] at h
  | cons i is ih =>
    intro vals arr r h
    cases vals with
    | nil => simp [scatter] at h
    | cons v vs =>
      simp only [scatter] at h
      split at h
      · have := ih h
        simpa using this
      · cases h

theorem scatter_spec : ∀ {idx : List Nat} {vals arr : List Int},
    (∀ i ∈ idx, i < arr.length) → idx.length = vals.length → idx.Nodup →
    ∃ r, scatter arr idx vals = some r ∧ r.length = arr.length ∧
      (∀ j (hj : j < idx.length),
        r.get? (idx.get ⟨j, hj⟩) = vals.get? j) ∧
      (∀ i, i ∉ idx → r.get? i = arr.get? i) := by
  intro idx
  induction idx with
  | nil =>
    intro vals arr _ hlen _
    cases vals with
    | nil =>
      refine ⟨arr, rfl, rfl, ?_, fun _ _ => rfl⟩
      intro j hj; simp at hj
    | cons v vs => simp at hlen
  | cons i is ih =>
    intro vals arr hb hlen hnd
    cases vals with
    | nil => simp at hlen
    | cons v vs =>
      have hi : i < arr.length := hb i (by simp)
      have hb' : ∀ k ∈ is, k < (arr.set i v).length := by
        intro k hk; simpa using hb k (by simp [hk])
      have hnd' : is.Nodup := (List.nodup_cons.1 hnd).2
      have hni : i ∉ is := (List.nodup_cons.1 hnd).1
      obtain ⟨r, hr, hrlen, hvals, hframe⟩ :=
        @ih vs (arr.set i v) hb' (by simpa using hlen) hnd'
      refine ⟨r, ?_, by simpa using hrlen, ?_, ?_⟩
      · simp only [scatter, if_pos hi]; exact hr
      · intro j hj
        cases j with
        | zero =>
          have : r.get? i = (arr.set i v).get? i := hframe i hni
          rw [List.get?_eq_getElem?] at this ⊢
          simpa [List.getElem?_set_self', List.getElem?_eq_getElem hi] using this
        | succ j =>
          simpa using hvals j (by simpa using hj)
      · intro k hk
        have hk1 : k ≠ i := by intro h; exact hk (by simp [h])
        have hk2 : k ∉ is := fun h => hk (by simp [h])
        rw [hframe k hk2, List.get?_eq_getElem?, List.get?_eq_getElem?,
          List.getElem?_set_ne (by omega)]

/-! ### Lemmas on `agentIndex` (the AgentRouter partition) -/

theorem mem_agentIndex {tags : List Int} {a : Int} {i : Nat} :
    i ∈ agentIndex tags a ↔ i < tags.length ∧ tags.getD i 0 = a := by
  simp [agentIndex, List.mem_filter, List.mem_range]

theorem agentIndex_nodup (tags : List Int) (a : Int) :
    (agentIndex tags a).Nodup :=
  (List.nodup_range _).filter _

theorem agentIndex_disjoint {tags : List Int} {a b : Int} (hab : a ≠ b)
    {i : Nat} (ha : i ∈ agentIndex tags a) : i ∉ agentIndex tags b := by
  intro hbmem
  exact hab ((mem_agentIndex.1 ha).2 ▸ (mem_agentIndex.1 hbmem).2 ▸ rfl)

theorem agentIndex_lt {tags : List Int} {a : Int} {i : Nat}
    (h : i ∈ agentIndex tags a) : i < tags.length := (mem_agentIndex.1 h).1

/-! ### Counting: disjoint partitions cover the matched positions -/

theorem sum_map_add (g h : α → Nat) : ∀ (l : List α),
    (l.map (fun a => g a + h a)).sum = (l.map g).sum + (l.map h).sum := by
  intro l
  induction l with
  | nil => rfl
  | cons a l ih => simp [ih]; omega

theorem sum_map_zero_of_not_mem (f : Nat → Int) (i : Nat) :
    ∀ (as : List Int), f i ∉ as →
      (as.map (fun a => if f i = a then 1 else 0)).sum = 0 := by
  intro as
  induction as with
  | nil => intro _; rfl
  | cons a as ih =>
    intro h
    have h1 : f i ≠ a := by intro he; exact h (by simp [he])
    have h2 : f i ∉ as := fun hm => h (by simp [hm])
    simp [h1, ih h2]

theorem sum_map_indicator (f : Nat → Int) (i : Nat) :
    ∀ (as : List Int), as.Nodup →
      (as.map (fun a => if f i = a then 1 else 0)).sum
        = if f i ∈ as then 1 else 0 := by
  intro as
  induction as with
  | nil => intro _; rfl
  | cons a as ih =>
    intro hnd
    obtain ⟨hna, hnd'⟩ := List.nodup_cons.1 hnd
    by_cases he : f i = a
    · have : f i ∉ as := he ▸ hna
      simp only [List.map_cons, List.sum_cons, if_pos he,
        sum_map_zero_of_not_mem f i as this]
      simp [he]
    · have : (f i ∈ a :: as) = (f i ∈ as) := by
        simp [List.mem_cons, he]
      simp only [List.map_cons, List.sum_cons, if_neg he, this, ih hnd']
      omega

theorem count_partition (f : Nat → Int) (as : List Int) (hnd : as.Nodup) :
    ∀ (l : List Nat),
      (as.map (fun a => (l.filter (fun i => f i = a)).length)).sum
        = (l.filter (fun i => f i ∈ as)).length := by
  intro l
  induction l with
  | nil =>
    simp only [List.filter_nil, List.length_nil]
    exact List.sum_eq_zero (by intro x hx; simp at hx; obtain ⟨a, _, h⟩ := hx; omega)
  | cons i l ih =>
    have hsplit : ∀ a : Int, (((i :: l).filter (fun k => f k = a)).length)
        = (l.filter (fun k => f k = a)).length + (if f i = a then 1 else 0) := by
      intro a
      by_cases h : f i = a
      · simp [List.filter_cons, h]
      · simp [List.filter_cons, h]
    have hmap : (as.map (fun a => (((i :: l).filter (fun k => f k = a)).length)))
        = as.map (fun a => (l.filter (fun k => f k = a)).length
            + (if f i = a then 1 else 0)) := by
      exact List.map_congr_left (fun a _ => hsplit a)
    rw [hmap, sum_map_add, ih, sum_map_indicator f i as hnd]
    by_cases h : f i ∈ as
    · simp [List.filter_cons, h]
    · simp [List.filter_cons, h]

theorem sum_partitions_eq_matchedCount (policies : List SubPolicy)
    (tags : List Int) (hnd : (policies.map (fun p => p.agent_id)).Nodup) :
    (policies.map (fun p => (agentIndex tags p.agent_id).length)).sum
      = matchedCount policies tags := by
  have h1 : policies.map (fun p => (agentIndex tags p.agent_id).length)
      = (policies.map (fun p => p.agent_id)).map
          (fun a => ((List.range tags.length).filter
            (fun i => tags.getD i 0 = a)).length) := by
    rw [List.map_map]; rfl
  rw [h1, matchedCount,
    count_partition (fun i => tags.getD i 0) _ hnd (List.range tags.length)]

theorem matchedCount_eq_length (policies : List SubPolicy) (tags : List Int)
    (hcover : ∀ t ∈ tags, ∃ p ∈ policies, t = p.agent_id) :
    matchedCount policies tags = tags.length := by
  rw [matchedCount]
  have : (List.range tags.length).filter
      (fun i => tags.getD i 0 ∈ policies.map (fun p => p.agent_id))
        = List.range tags.length := by
    apply List.filter_eq_self.2
    intro i hi
    have hi' : i < tags.length := List.mem_range.1 hi
    have hmem : tags.getD i 0 ∈ tags := by
      rw [List.getD_eq_getElem tags 0 hi']
      exact List.getElem_mem hi'
    obtain ⟨p, hp, ht⟩ := hcover _ hmem
    simp only [decide_eq_true_eq]
    exact List.mem_map.2 ⟨p, hp, ht.symm⟩
  rw [this, List.length_range]

/-! ### Registry lemmas -/

theorem policyInv_initPolicies (ps : List SubPolicy) :
    PolicyInv (initPolicies ps) := by
  intro i h
  simp [initPolicies, List.get_eq_getElem, List.getElem_mapIdx]

theorem policyInv_pairwise_ne {ps : List SubPolicy} (h : PolicyInv ps) :
    ps.Pairwise (fun p q => p.agent_id ≠ q.agent_id) := by
  rw [List.pairwise_iff_get]
  intro i j hij
  rw [h i.1 i.2, h j.1 j.2]
  have : (i : Nat) ≠ (j : Nat) := by omega
  intro hc
  apply this
  omega

theorem policyInv_ids_nodup {ps : List SubPolicy} (h : PolicyInv ps) :
    (ps.map (fun p => p.agent_id)).Nodup := by
  have hp : (ps.map (fun p => p.agent_id)).Pairwise (· ≠ ·) :=
    List.pairwise_map.mpr (policyInv_pairwise_ne h)
  exact hp

/-! ### Characterization of `forward`'s collection loop -/

theorem fwdOne_empty {p : SubPolicy} {batch : Batch}
    {state : Option (Int → Option Int)}
    (h : agentIndex batch.tags p.agent_id = []) :
    fwdOne p batch state = some ⟨false, [], none, [], none⟩ := by
  simp [fwdOne, h]

theorem fwdOne_nonempty {p : SubPolicy} {batch : Batch}
    {state : Option (Int → Option Int)} {tmp : Batch}
    (h : agentIndex batch.tags p.agent_id ≠ [])
    (hs : fwdSlice batch (agentIndex batch.tags p.agent_id) p.agent_id
      = some tmp) :
    fwdOne p batch state = some
      ⟨true, agentIndex batch.tags p.agent_id,
        some (p.fwd tmp (stateFor state p.agent_id)),
        (p.fwd tmp (stateFor state p.agent_id)).act,
        (p.fwd tmp (stateFor state p.agent_id)).state⟩ := by
  have hne : (agentIndex batch.tags p.agent_id).isEmpty = false := by
    cases hai : agentIndex batch.tags p.agent_id with
    | nil => exact absurd hai h
    | cons a l => rfl
  simp [fwdOne, hne, hs]

theorem fwdOne_some_cases {p : SubPolicy} {batch : Batch}
    {state : Option (Int → Option Int)} {e : FwdEntry}
    (h : fwdOne p batch state = some e) :
    (agentIndex batch.tags p.agent_id = []
      ∧ e = ⟨false, [], none, [], none⟩) ∨
    (agentIndex batch.tags p.agent_id ≠ [] ∧
      ∃ tmp, fwdSlice batch (agentIndex batch.tags p.agent_id) p.agent_id
          = some tmp ∧
        e = ⟨true, agentIndex batch.tags p.agent_id,
          some (p.fwd tmp (stateFor state p.agent_id)),
          (p.fwd tmp (stateFor state p.agent_id)).act,
          (p.fwd tmp (stateFor state p.agent_id)).state⟩) := by
  by_cases hai : agentIndex batch.tags p.agent_id = []
  · left
    refine ⟨hai, ?_⟩
    rw [fwdOne_empty hai] at h
    exact (Option.some_inj.1 h).symm
  · right
    refine ⟨hai, ?_⟩
    rw [fwdOne] at h
    have hne : (agentIndex batch.tags p.agent_id).isEmpty = false := by
      cases hai2 : agentIndex batch.tags p.agent_id with
      | nil => exact absurd hai2 hai
      | cons a l => rfl
    rw [hne] at h
    simp only [Bool.false_eq_true, if_false] at h
    cases hs : fwdSlice batch (agentIndex batch.tags p.agent_id) p.agent_id with
    | none => rw [hs] at h; cases h
    | some tmp =>
      rw [hs] at h
      simp only [Option.some.injEq] at h
      exact ⟨tmp, rfl, h.symm⟩

theorem collectEntries_cases {batch : Batch}
    {state : Option (Int → Option Int)} :
    ∀ {ps : List SubPolicy} {es : List FwdEntry},
      collectEntries batch state ps = some es →
      es.length = ps.length ∧
      ∀ k (hk : k < ps.length), ∃ hk2 : k < es.length,
        fwdOne (ps.get ⟨k, hk⟩) batch state = some (es.get ⟨k, hk2⟩) := by
  intro ps
  induction ps with
  | nil =>
    intro es h
    simp only [collectEntries, Option.some.injEq] at h
    subst h
    exact ⟨rfl, fun k hk => by simp at hk⟩
  | cons p ps ih =>
    intro es h
    rw [collectEntries] at h
    cases h1 : fwdOne p batch state with
    | none => rw [h1] at h; cases h
    | some e =>
      rw [h1] at h
      cases h2 : collectEntries batch state ps with
      | none => rw [h2] at h; cases h
      | some es' =>
        rw [h2] at h
        simp only [Option.some.injEq] at h
        subst h
        obtain ⟨hlen, hget⟩ := ih h2
        refine ⟨by simp [hlen], ?_⟩
        intro k hk
        cases k with
        | zero => exact ⟨by simp, by simpa using h1⟩
        | succ k =>
          obtain ⟨hk2, hg⟩ := hget k (by simpa using hk)
          exact ⟨by simpa using Nat.succ_lt_succ hk2, by simpa using hg⟩

theorem collectEntries_isSome {batch : Batch}
    {state : Option (Int → Option Int)} :
    ∀ {ps : List SubPolicy}, (∀ p ∈ ps, (fwdOne p batch state).isSome) →
      (collectEntries batch state ps).isSome := by
  intro ps
  induction ps with
  | nil => intro _; simp [collectEntries]
  | cons p ps ih =>
    intro h
    rw [collectEntries]
    cases h1 : fwdOne p batch state with
    | none =>
      have := h p (by simp)
      rw [h1] at this; cases this
    | some e =>
      cases h2 : collectEntries batch state ps with
      | none =>
        have := ih (fun q hq => h q (by simp [hq]))
        rw [h2] at this; cases this
      | some es => simp

theorem scatterPhase_length : ∀ {es : List FwdEntry} {act r : List Int},
    scatterPhase act es = some r → r.length = act.length := by
  intro es
  induction es with
  | nil =>
    intro act r h
    simp only [scatterPhase, Option.some.injEq] at h
    rw [← h]
  | cons e es ih =>
    intro act r h
    rw [scatterPhase] at h
    by_cases hd : e.has_data
    · rw [if_pos hd] at h
      cases h1 : scatter act e.agent_index e.act with
      | none => rw [h1] at h; cases h
      | some act1 =>
        rw [h1] at h
        rw [ih h, scatter_length h1]
    · rw [if_neg hd] at h
      exact ih h

theorem scatterPhase_spec : ∀ {es : List FwdEntry} {act : List Int},
    (∀ e ∈ es, ∀ i ∈ e.agent_index, i < act.length) →
    (∀ e ∈ es, e.agent_index.length = e.act.length) →
    (∀ e ∈ es, e.agent_index.Nodup) →
    (∀ e ∈ es, e.has_data = false → e.agent_index = []) →
    es.Pairwise (fun e f => ∀ i, i ∈ e.agent_index → i ∉ f.agent_index) →
    ∃ r, scatterPhase act es = some r ∧ r.length = act.length ∧
      (∀ e ∈ es, ∀ j (hj : j < e.agent_index.length),
        r.get? (e.agent_index.get ⟨j, hj⟩) = e.act.get? j) ∧
      (∀ i, (∀ e ∈ es, i ∉ e.agent_index) → r.get? i = act.get? i) := by
  intro es
  induction es with
  | nil =>
    intro act _ _ _ _ _
    exact ⟨act, rfl, rfl, fun e he => by simp at he, fun i _ => rfl⟩
  | cons e es ih =>
    intro act hb hl hnd hsent hdisj
    have hdisj_head : ∀ f ∈ es, ∀ i, i ∈ e.agent_index → i ∉ f.agent_index :=
      fun f hf i hi => (List.pairwise_cons.1 hdisj).1 f hf i hi
    have hdisj_tail := (List.pairwise_cons.1 hdisj).2
    by_cases hd : e.has_data
    · obtain ⟨act1, hsc, hlen1, hvals1, hframe1⟩ :=
        @scatter_spec e.agent_index e.act act
          (fun i hi => hb e (by simp) i hi) (hl e (by simp)) (hnd e (by simp))
      obtain ⟨r, hr, hrlen, hvals, hframe⟩ :=
        @ih act1
          (fun f hf i hi => hlen1 ▸ hb f (by simp [hf]) i hi)
          (fun f hf => hl f (by simp [hf]))
          (fun f hf => hnd f (by simp [hf]))
          (fun f hf h0 => hsent f (by simp [hf]) h0)
          hdisj_tail
      refine ⟨r, ?_, by rw [hrlen, hlen1], ?_, ?_⟩
      · rw [scatterPhase, if_pos hd, hsc]; exact hr
      · intro f hf j hj
        rcases List.mem_cons.1 hf with hfe | hfe
        · subst hfe
          have hmem : f.agent_index.get ⟨j, hj⟩ ∈ f.agent_index :=
            List.get_mem _ _ _
          have hnotin : ∀ g ∈ es, f.agent_index.get ⟨j, hj⟩ ∉ g.agent_index :=
            fun g hg => hdisj_head g hg _ hmem
          rw [hframe _ hnotin]
          exact hvals1 j hj
        · exact hvals f hfe j hj
      · intro i hi
        rw [hframe i (fun f hf => hi f (by simp [hf]))]
        exact hframe1 i (hi e (by simp))
    · have hae : e.agent_index = [] := hsent e (by simp) (by simpa using hd)
      obtain ⟨r, hr, hrlen, hvals, hframe⟩ :=
        @ih act
          (fun f hf i hi => hb f (by simp [hf]) i hi)
          (fun f hf => hl f (by simp [hf]))
          (fun f hf => hnd f (by simp [hf]))
          (fun f hf h0 => hsent f (by simp [hf]) h0)
          hdisj_tail
      refine ⟨r, ?_, hrlen, ?_, ?_⟩
      · rw [scatterPhase, if_neg hd]; exact hr
      · intro f hf j hj
        rcases List.mem_cons.1 hf with hfe | hfe
        · subst hfe; rw [hae] at hj; simp at hj
        · exact hvals f hfe j hj
      · intro i hi
        exact hframe i (fun f hf => hi f (by simp [hf]))

/-! ### Reward-shape side conditions for the action path -/

theorem colGet_isSome {j : Int} : ∀ {m : List (List Int)},
    (∀ row ∈ m, (pyGet row j).isSome) → (colGet m j).isSome := by
  intro m
  induction m with
  | nil => intro _; simp [colGet]
  | cons row rest ih =>
    intro h
    rw [colGet]
    cases h1 : pyGet row j with
    | none =>
      have := h row (by simp)
      rw [h1] at this; cases this
    | some c =>
      cases h2 : colGet rest j with
      | none =>
        have := ih (fun r hr => h r (by simp [hr]))
        rw [h2] at this; cases this
      | some cs => simp

theorem fwdSlice_isSome {batch : Batch} {ai : List Nat} {aid : Int} {n : Nat}
    (hrew : RewOkB batch.rew n)
    (haid : 0 ≤ aid - 1 ∧ aid - 1 < (n : Int)) :
    (fwdSlice batch ai aid).isSome := by
  rcases hrew with h | ⟨m, hm, hrow⟩
  · rw [fwdSlice]
    have hsl : (batch.slice ai).rew = .emptyB := by
      rw [Batch.slice, h]; rfl
    rw [hsl]
    rfl
  · rw [fwdSlice]
    have hsl : (batch.slice ai).rew = .arr2 (sliceList m ai) := by
      rw [Batch.slice, hm]; rfl
    rw [hsl]
    have hcol : (colGet (sliceList m ai) (aid - 1)).isSome := by
      apply colGet_isSome
      intro row hr
      have hrm : row ∈ m := sliceList_mem hr
      exact pyGet_isSome haid.1 (by have := hrow row hrm; omega)
    obtain ⟨c, hc⟩ := Option.isSome_iff_exists.1 hcol
    simp [Rew.isArr, Rew.col, hc]

theorem fwdSlice_tags {batch : Batch} {ai : List Nat} {aid : Int} {tmp : Batch}
    (h : fwdSlice batch ai aid = some tmp) :
    tmp.tags = sliceList batch.tags ai := by
  rw [fwdSlice] at h
  rcases hr : (batch.slice ai).rew with _ | v | m
  · rw [hr] at h
    simp only [Rew.isArr, Bool.false_eq_true, if_false, Option.some_inj] at h
    rw [← h, Batch.slice]
  · rw [hr] at h
    simp [Rew.isArr, Rew.col] at h
  · rw [hr] at h
    simp only [Rew.isArr, if_true] at h
    cases hc : Rew.col (.arr2 m) (aid - 1) with
    | none => rw [hc] at h; cases h
    | some c =>
      rw [hc] at h
      simp only [Option.map_some', Option.some_inj] at h
      rw [← h, Batch.slice]

theorem sum_filter_acts : ∀ {es : List FwdEntry},
    (∀ e ∈ es, e.has_data = false → e.act = []) →
    ((es.filter (·.has_data)).map (fun e => e.act.length)).sum
      = (es.map (fun e => e.act.length)).sum := by
  intro es
  induction es with
  | nil => intro _; rfl
  | cons e es ih =>
    intro h
    have ih' := ih (fun f hf h0 => h f (by simp [hf]) h0)
    by_cases hd : e.has_data
    · simp [List.filter_cons, hd, ih']
    · have hd' : e.has_data = false := by simpa using hd
      have hact : e.act = [] := h e (by simp) hd'
      simp [List.filter_cons, hd', hact, ih']

/-! ### Per-entry facts derived from a successful collection loop -/

theorem entry_sub {p : SubPolicy} {batch : Batch}
    {state : Option (Int → Option Int)} {e : FwdEntry}
    (h : fwdOne p batch state = some e) :
    ∀ i ∈ e.agent_index, i ∈ agentIndex batch.tags p.agent_id := by
  rcases fwdOne_some_cases h with ⟨_, he⟩ | ⟨_, tmp, _, he⟩ <;> subst he
  · intro i hi; simp at hi
  · intro i hi; exact hi

theorem entry_nodup {p : SubPolicy} {batch : Batch}
    {state : Option (Int → Option Int)} {e : FwdEntry}
    (h : fwdOne p batch state = some e) : e.agent_index.Nodup := by
  rcases fwdOne_some_cases h with ⟨_, he⟩ | ⟨_, tmp, _, he⟩ <;> subst he
  · exact List.nodup_nil
  · exact agentIndex_nodup _ _

theorem entry_sentinel {p : SubPolicy} {batch : Batch}
    {state : Option (Int → Option Int)} {e : FwdEntry}
    (h : fwdOne p batch state = some e) :
    e.has_data = false → e.agent_index = [] := by
  rcases fwdOne_some_cases h with ⟨_, he⟩ | ⟨_, tmp, _, he⟩ <;> subst he
  · intro _; rfl
  · intro hc; cases hc

theorem entry_act_empty {p : SubPolicy} {batch : Batch}
    {state : Option (Int → Option Int)} {e : FwdEntry}
    (h : fwdOne p batch state = some e) :
    e.has_data = false → e.act = [] := by
  rcases fwdOne_some_cases h with ⟨_, he⟩ | ⟨_, tmp, _, he⟩ <;> subst he
  · intro _; rfl
  · intro hc; cases hc

theorem entry_lengths {p : SubPolicy} {batch : Batch}
    {state : Option (Int → Option Int)} {e : FwdEntry}
    (h : fwdOne p batch state = some e)
    (hlenp : ∀ b s, ((p.fwd b s)).act.length = b.tags.length) :
    e.agent_index.length = e.act.length ∧
      e.act.length = (agentIndex batch.tags p.agent_id).length := by
  rcases fwdOne_some_cases h with ⟨hai, he⟩ | ⟨_, tmp, hs, he⟩ <;> subst he
  · simp [hai]
  · have htags := fwdSlice_tags hs
    have hbound : ∀ i ∈ agentIndex batch.tags p.agent_id, i < batch.tags.length :=
      fun i hi => agentIndex_lt hi
    have : (sliceList batch.tags (agentIndex batch.tags p.agent_id)).length
        = (agentIndex batch.tags p.agent_id).length := sliceList_length hbound
    constructor
    · simp only [hlenp, htags, this]
    · simp only [hlenp, htags, this]

/-! ### The `forward` equation under successful sub-steps -/

theorem forward_eq_some {policies : List SubPolicy} {batch : Batch}
    {state : Option (Int → Option Int)} {es : List FwdEntry} {r : List Int}
    (hce : collectEntries batch state policies = some es)
    (hsp : scatterPhase (((es.filter (·.has_data)).map (·.act)).flatten) es
      = some r) :
    forward policies batch state = some
      { act := r
        state_dict := (policies.zip es).map
          (fun pe => (agentKey pe.1.agent_id, pe.2.each_state))
        out_dict := (policies.zip es).map
          (fun pe => (agentKey pe.1.agent_id, pe.2.out)) } := by
  rw [forward, hce]
  simp only [hsp]

theorem entries_pairwise {policies : List SubPolicy} {batch : Batch}
    {state : Option (Int → Option Int)} {es : List FwdEntry}
    (hinv : PolicyInv policies)
    (hce : collectEntries batch state policies = some es) :
    es.Pairwise (fun e f => ∀ i, i ∈ e.agent_index → i ∉ f.agent_index) := by
  obtain ⟨hel, hget⟩ := collectEntries_cases hce
  rw [List.pairwise_iff_get]
  intro i j hij
  have hi : (i : Nat) < policies.length := hel ▸ i.2
  have hj : (j : Nat) < policies.length := hel ▸ j.2
  obtain ⟨hi2, hfi⟩ := hget i hi
  obtain ⟨hj2, hfj⟩ := hget j hj
  have hEi : es.get ⟨(i : Nat), hi2⟩ = es.get i := rfl
  have hEj : es.get ⟨(j : Nat), hj2⟩ = es.get j := rfl
  rw [hEi] at hfi
  rw [hEj] at hfj
  intro x hx hxj
  have hxi' : x ∈ agentIndex batch.tags (policies.get ⟨(i : Nat), hi⟩).agent_id :=
    entry_sub hfi x hx
  have hxj' : x ∈ agentIndex batch.tags (policies.get ⟨(j : Nat), hj⟩).agent_id :=
    entry_sub hfj x hxj
  have hne : (policies.get ⟨(i : Nat), hi⟩).agent_id
      ≠ (policies.get ⟨(j : Nat), hj⟩).agent_id := by
    rw [hinv (i : Nat) hi, hinv (j : Nat) hj]
    have : (i : Nat) ≠ (j : Nat) := by omega
    intro hc
    apply this
    omega
  exact agentIndex_disjoint hne hxi' hxj'

theorem holder_length {policies : List SubPolicy} {batch : Batch}
    {state : Option (Int → Option Int)} {es : List FwdEntry}
    (hinv : PolicyInv policies)
    (hce : collectEntries batch state policies = some es)
    (hlen : ∀ p ∈ policies, ∀ b s, ((p.fwd b s)).act.length = b.tags.length) :
    (((es.filter (·.has_data)).map (·.act)).flatten).length
      = matchedCount policies batch.tags := by
  obtain ⟨hel, hget⟩ := collectEntries_cases hce
  have hfwd : ∀ (k : Nat) (hk2 : k < es.length),
      fwdOne (policies.get ⟨k, hel ▸ hk2⟩) batch state
        = some (es.get ⟨k, hk2⟩) := by
    intro k hk2
    obtain ⟨hk2', hf⟩ := hget k (hel ▸ hk2)
    exact hf
  have hact0 : ∀ e ∈ es, e.has_data = false → e.act = [] := by
    intro e he h0
    obtain ⟨k, hk⟩ := List.mem_iff_get.1 he
    have := entry_act_empty (hfwd k.1 k.2) (by rw [hk]; exact h0)
    rw [← hk]
    exact this
  rw [List.length_flatten, List.map_map]
  have hcomp : (List.length ∘ fun e : FwdEntry => e.act)
      = fun e : FwdEntry => e.act.length := rfl
  rw [hcomp, sum_filter_acts hact0]
  have hmaps : es.map (fun e => e.act.length)
      = policies.map (fun p => (agentIndex batch.tags p.agent_id).length) := by
    apply List.ext_get (by simp [hel])
    intro n h1 h2
    simp only [List.get_eq_getElem, List.getElem_map]
    have hn2 : n < es.length := by simpa using h1
    have hn : n < policies.length := by simpa using h2
    have hf := hfwd n hn2
    have := (entry_lengths hf (hlen _ (List.get_mem _ n _))).2
    simpa using this
  rw [hmaps, sum_partitions_eq_matchedCount policies batch.tags
    (policyInv_ids_nodup hinv)]

/-- C1 (main theorem): on a batch whose agent tags are all covered by the
registered policies, `forward` succeeds, the merged action container has
the batch's length, and at every position of each policy's partition it
holds exactly the action that policy's own `forward` produces for the
corresponding slice, in relative order, given the prior state looked up
under its agent id. -/
theorem forward_partition_correct (policies : List SubPolicy) (batch : Batch)
    (state : Option (Int → Option Int))
    (hinv : PolicyInv policies)
    (hcover : ∀ t ∈ batch.tags, ∃ p ∈ policies, t = p.agent_id)
    (hlen : ∀ p ∈ policies, ∀ b s, ((p.fwd b s)).act.length = b.tags.length)
    (hrew : RewOkB batch.rew policies.length) :
    ∃ res, forward policies batch state = some res ∧
      res.act.length = batch.tags.length ∧
      ∀ p ∈ policies,
        ∃ tmp, fwdSlice batch (agentIndex batch.tags p.agent_id) p.agent_id
            = some tmp ∧
          ∀ j (hj : j < (agentIndex batch.tags p.agent_id).length),
            res.act.get? ((agentIndex batch.tags p.agent_id).get ⟨j, hj⟩)
              = ((p.fwd tmp (stateFor state p.agent_id)).act).get? j := by
  -- the policy boundedness needed for reward-column extraction
  have haid : ∀ p ∈ policies, 0 ≤ p.agent_id - 1
      ∧ p.agent_id - 1 < (policies.length : Int) := by
    intro p hp
    obtain ⟨k, hk⟩ := List.mem_iff_get.1 hp
    have := hinv k.1 k.2
    rw [hk] at this
    constructor
    · omega
    · have : p.agent_id = (k.1 : Int) + 1 := this
      have hk2 : (k.1 : Int) < (policies.length : Int) := by
        exact_mod_cast k.2
      omega
  -- every per-policy collection step succeeds
  have hone : ∀ p ∈ policies, (fwdOne p batch state).isSome := by
    intro p hp
    by_cases hai : agentIndex batch.tags p.agent_id = []
    · rw [fwdOne_empty hai]; rfl
    · obtain ⟨tmp, hs⟩ := Option.isSome_iff_exists.1
        (@fwdSlice_isSome batch (agentIndex batch.tags p.agent_id)
          p.agent_id policies.length hrew (haid p hp))
      rw [fwdOne_nonempty hai hs]; rfl
  obtain ⟨es, hce⟩ := Option.isSome_iff_exists.1 (collectEntries_isSome hone)
  obtain ⟨hel, hget⟩ := collectEntries_cases hce
  have hfwd : ∀ (k : Nat) (hk : k < policies.length) (hk2 : k < es.length),
      fwdOne (policies.get ⟨k, hk⟩) batch state
        = some (es.get ⟨k, hk2⟩) := by
    intro k hk hk2
    obtain ⟨hk2', hf⟩ := hget k hk
    exact hf
  have hmemfwd : ∀ e ∈ es, ∃ p ∈ policies, fwdOne p batch state = some e := by
    intro e he
    obtain ⟨k, hk⟩ := List.mem_iff_get.1 he
    have hkp : k.1 < policies.length := by rw [← hel]; exact k.2
    exact ⟨policies.get ⟨k.1, hkp⟩, List.get_mem _ _ _,
      by rw [hfwd k.1 hkp k.2, hk]⟩
  -- the merged container already has the full batch length
  have hhl : (((es.filter (·.has_data)).map (·.act)).flatten).length
      = batch.tags.length := by
    rw [holder_length hinv hce hlen, matchedCount_eq_length policies _ hcover]
  -- scatter succeeds and is position-faithful
  obtain ⟨r, hsp, hrlen, hvals, _⟩ :=
    @scatterPhase_spec es
      (((es.filter (·.has_data)).map (·.act)).flatten)
      (by
        intro e he i hi
        obtain ⟨p, hp, hf⟩ := hmemfwd e he
        have := agentIndex_lt (entry_sub hf i hi)
        omega)
      (by
        intro e he
        obtain ⟨p, hp, hf⟩ := hmemfwd e he
        exact (entry_lengths hf (hlen p hp)).1)
      (by
        intro e he
        obtain ⟨p, hp, hf⟩ := hmemfwd e he
        exact entry_nodup hf)
      (by
        intro e he
        obtain ⟨p, hp, hf⟩ := hmemfwd e he
        exact entry_sentinel hf)
      (entries_pairwise hinv hce)
  refine ⟨_, forward_eq_some hce hsp, ?_, ?_⟩
  · simpa using (hrlen.trans hhl)
  · intro p hp
    by_cases hai : agentIndex batch.tags p.agent_id = []
    · obtain ⟨tmp, hs⟩ := Option.isSome_iff_exists.1
        (@fwdSlice_isSome batch (agentIndex batch.tags p.agent_id)
          p.agent_id policies.length hrew (haid p hp))
      refine ⟨tmp, hs, ?_⟩
      intro j hj
      rw [hai] at hj
      simp at hj
    · obtain ⟨k, hk⟩ := List.mem_iff_get.1 hp
      have hk2 : k.1 < es.length := by rw [hel]; exact k.2
      have hf := hfwd k.1 k.2 hk2
      have hpk : policies.get ⟨k.1, k.2⟩ = p := by rw [← hk]
      rw [hpk] at hf
      rcases fwdOne_some_cases hf with ⟨hempty, _⟩ | ⟨_, tmp, hs, he⟩
      · exact absurd hempty hai
      · refine ⟨tmp, hs, ?_⟩
        intro j hj
        have hmem : es.get ⟨k.1, hk2⟩ ∈ es := List.get_mem _ _ _
        rw [he] at hmem
        have := hvals _ hmem j (by simpa using hj)
        simpa using this

/-- C1 witness: the spec's concrete two-agent scenario with tags
`[1, 2, 1, 2, 1, 2]`. -/
theorem forward_partition_correct_witness :
    ∃ res, forward psW batchW none = some res ∧
      res.act.length = batchW.tags.length ∧
      ∀ p ∈ psW,
        ∃ tmp, fwdSlice batchW (agentIndex batchW.tags p.agent_id) p.agent_id
            = some tmp ∧
          ∀ j (hj : j < (agentIndex batchW.tags p.agent_id).length),
            res.act.get? ((agentIndex batchW.tags p.agent_id).get ⟨j, hj⟩)
              = ((p.fwd tmp (stateFor none p.agent_id)).act).get? j :=
  forward_partition_correct psW batchW none
    (policyInv_initPolicies _)
    (by decide)
    (by
      intro p hp b s
      have hps : psW = [{ cP 10 with agent_id := 1 },
          { cP 20 with agent_id := 2 }] := rfl
      rw [hps] at hp
      rcases List.mem_cons.1 hp with h | h
      · subst h; simp [cP]
      · rcases List.mem_cons.1 h with h2 | h2
        · subst h2; simp [cP]
        · simp at h2)
    (Or.inl rfl)

/-- C4 counterexample: with only agent 1 registered and tags `[2, 1]`,
the unmatched transition precedes the matched one, so the positional
scatter writes index 1 into a length-1 holder and `forward` faults —
refuting "no fault is raised". -/
theorem forward_unmatched_fault_counterexample :
    (∀ p ∈ psOne, (2 : Int) ≠ p.agent_id) ∧
    forward psOne ⟨[2, 1], .emptyB⟩ none = none :=
  ⟨by decide, rfl⟩

/-- C4 (amended): an unmatched transition is excluded from every policy's
partition, and any completed `forward` call returns an action container
whose length is the number of matched transitions (not the batch length),
so the unmatched transition has no position of its own; when a matched
position is not below that count the scatter faults instead. -/
theorem forward_unmatched_excluded (policies : List SubPolicy) (batch : Batch)
    (hinv : PolicyInv policies)
    (hlen : ∀ p ∈ policies, ∀ b s, ((p.fwd b s)).act.length = b.tags.length) :
    (∀ i, (∀ p ∈ policies, batch.tags.getD i 0 ≠ p.agent_id) →
      ∀ p ∈ policies, i ∉ agentIndex batch.tags p.agent_id) ∧
    (∀ state res, forward policies batch state = some res →
      res.act.length = matchedCount policies batch.tags) := by
  constructor
  · intro i hno p hp hmem
    exact hno p hp (mem_agentIndex.1 hmem).2
  · intro state res hres
    rw [forward] at hres
    cases hce : collectEntries batch state policies with
    | none => rw [hce] at hres; cases hres
    | some es =>
      rw [hce] at hres
      simp only [] at hres
      cases hsp : scatterPhase
          (((es.filter (·.has_data)).map (·.act)).flatten) es with
      | none => rw [hsp] at hres; cases hres
      | some r =>
        rw [hsp] at hres
        simp only [Option.some_inj] at hres
        rw [← hres]
        exact (scatterPhase_length hsp).trans (holder_length hinv hce hlen)

/-- C4 witness for the amended theorem: only agent 1 registered, tags
`[1, 2]` (the unmatched transition trails), `forward` completes with a
singleton action container. -/
theorem forward_unmatched_excluded_witness :
    (∀ i, (∀ p ∈ psOne, ((⟨[1, 2], .emptyB⟩ : Batch)).tags.getD i 0
        ≠ p.agent_id) →
      ∀ p ∈ psOne, i ∉ agentIndex ((⟨[1, 2], .emptyB⟩ : Batch)).tags
        p.agent_id) ∧
    (∀ state res, forward psOne (⟨[1, 2], .emptyB⟩ : Batch) state = some res →
      res.act.length = matchedCount psOne ((⟨[1, 2], .emptyB⟩ : Batch)).tags) :=
  forward_unmatched_excluded psOne ⟨[1, 2], .emptyB⟩
    (policyInv_initPolicies _)
    (by
      intro p hp b s
      have hps : psOne = [{ cP 10 with agent_id := 1 }] := rfl
      rw [hps] at hp
      rcases List.mem_cons.1 hp with h | h
      · subst h; simp [cP]
      · simp at h)

/-! ### Hot-swap registration (`replace_policy`) -/

theorem pySet_pos {l : List α} {a : α} {i : Int} (h0 : 0 ≤ i)
    (h1 : i < (l.length : Int)) :
    pySet l i a = some (l.set i.toNat a) := by
  rw [pySet, pyIdx_of_lt h0 h1]

theorem pySet_neg {l : List α} {a : α} {i : Int}
    (h0 : -(l.length : Int) ≤ i) (h1 : i < 0) :
    pySet l i a = some (l.set ((l.length : Int) + i).toNat a) := by
  rw [pySet, pyIdx, if_neg (by omega), if_pos (by omega)]

theorem pySet_oob {l : List α} {a : α} {i : Int}
    (h : i < -(l.length : Int) ∨ (l.length : Int) ≤ i) :
    pySet l i a = none := by
  rw [pySet, pyIdx, if_neg (by omega), if_neg (by omega)]

/-- C5 counterexample: on a two-policy registry, `replace_policy` with
`agent_id = 0` — outside the claimed valid range `1..2` — does not fail:
it overwrites the last slot (Python negative indexing) and changes the
registry. -/
theorem replace_policy_zero_counterexample :
    ∃ r, replace_policy psW (cP 7) 0 = some r ∧
      r.map (fun p => p.agent_id) = [1, 0] ∧
      psW.map (fun p => p.agent_id) = [1, 2] :=
  ⟨_, rfl, rfl, rfl⟩

/-- C5 (amended): for `1 ≤ agentId ≤ N` the call overwrites exactly slot
`agentId − 1` with the new policy carrying the assigned id; it fails
(raising, registry untouched) only for `agentId > N` or
`agentId < 1 − N`; ids in `[1 − N, 0]` instead hit the negative-indexing
path. -/
theorem replace_policy_cases (policies : List SubPolicy) (q : SubPolicy)
    (a : Int) :
    (1 ≤ a → a ≤ (policies.length : Int) →
      replace_policy policies q a
        = some (policies.set (a - 1).toNat { q with agent_id := a })) ∧
    ((a < 1 - (policies.length : Int) ∨ (policies.length : Int) < a) →
      replace_policy policies q a = none) := by
  constructor
  · intro h1 h2
    exact pySet_pos (by omega) (by omega)
  · intro h
    exact pySet_oob (by omega)

/-- C5 witness: replacing agent 2 on the two-policy registry succeeds and
rewrites slot 1; replacing agent 3 fails. -/
theorem replace_policy_cases_witness :
    replace_policy psW (cP 7) 2
        = some (psW.set 1 { cP 7 with agent_id := 2 }) ∧
      replace_policy psW (cP 7) 3 = none :=
  ⟨(replace_policy_cases psW (cP 7) 2).1 (by omega) (by decide),
   (replace_policy_cases psW (cP 7) 3).2 (Or.inr (by decide))⟩

/-- C10: a non-positive `agent_id` within `[1 − N, 0]` does not fail:
negative indexing overwrites slot `N + agent_id − 1` (the last slot for
`agent_id = 0`) and assigns the non-positive id, which breaks the
position-plus-one correspondence for that slot. -/
theorem replace_policy_negative (ps : List SubPolicy) (q : SubPolicy)
    (a : Int) (hN : 0 < ps.length)
    (h1 : 1 - (ps.length : Int) ≤ a) (h2 : a ≤ 0) :
    ∃ r, replace_policy ps q a = some r ∧
      r = ps.set ((ps.length : Int) + a - 1).toNat { q with agent_id := a } ∧
      r.get? ((ps.length : Int) + a - 1).toNat
          = some { q with agent_id := a } ∧
      a ≠ ((((ps.length : Int) + a - 1).toNat : Int) + 1) := by
  have hset := @pySet_neg SubPolicy ps { q with agent_id := a }
    (a - 1) (by omega) (by omega)
  have hidx : ((ps.length : Int) + (a - 1)).toNat
      = ((ps.length : Int) + a - 1).toNat := by omega
  rw [hidx] at hset
  refine ⟨_, hset, rfl, ?_, by omega⟩
  have hlt : ((ps.length : Int) + a - 1).toNat < ps.length := by omega
  rw [List.get?_eq_getElem?]
  rw [List.getElem?_set_self (by simpa using hlt)]

/-- C10 witness: `agent_id = 0` on the two-policy registry overwrites the
last slot with a policy whose assigned id 0 differs from position + 1. -/
theorem replace_policy_negative_witness :
    ∃ r, replace_policy psW (cP 7) 0 = some r ∧
      r = psW.set 1 { cP 7 with agent_id := 0 } ∧
      r.get? 1 = some { cP 7 with agent_id := 0 } ∧
      (0 : Int) ≠ ((1 : Nat) : Int) + 1 :=
  replace_policy_negative psW (cP 7) 0 (by decide) (by decide) (by decide)

/-- C6 counterexample: after `replace_policy(q, 0)` on a singleton
registry the remaining policy's assigned id is 0, not position + 1, so
the invariant does not hold after every `replace_policy` call. -/
theorem registry_invariant_counterexample :
    ∃ r, replace_policy psOne (cP 7) 0 = some r ∧ ¬ PolicyInv r := by
  refine ⟨[{ cP 7 with agent_id := 0 }], rfl, ?_⟩
  intro h
  exact absurd (h 0 (by decide)) (by decide)

/-- C6 (amended): the invariant holds immediately after construction and
is preserved by every `replace_policy` call with `1 ≤ agentId ≤ N`; a
call with a non-positive in-range id (negative indexing) breaks it. -/
theorem registry_invariant (ps0 ps : List SubPolicy) (q : SubPolicy)
    (a : Int) (r : List SubPolicy) :
    PolicyInv (initPolicies ps0) ∧
    (PolicyInv ps → 1 ≤ a → a ≤ (ps.length : Int) →
      replace_policy ps q a = some r → PolicyInv r) := by
  refine ⟨policyInv_initPolicies ps0, ?_⟩
  intro hinv h1 h2 hr
  rw [replace_policy, pySet_pos (by omega) (by omega), Option.some_inj] at hr
  subst hr
  intro i hi
  have hi' : i < ps.length := by simpa using hi
  by_cases hia : i = (a - 1).toNat
  · subst hia
    have : ((a - 1).toNat : Int) = a - 1 := by omega
    simp only [List.get_eq_getElem, List.getElem_set_self]
    omega
  · have hne : (a - 1).toNat ≠ i := by omega
    simp only [List.get_eq_getElem, List.getElem_set_ne hne]
    simpa using hinv i hi'

/-- C6 witness: construction from two policies satisfies the invariant,
and replacing agent 2 on that registry preserves it. -/
theorem registry_invariant_witness :
    PolicyInv (initPolicies [cP 10, cP 20]) ∧
    PolicyInv (psW.set 1 { cP 7 with agent_id := 2 }) :=
  ⟨(registry_invariant [cP 10, cP 20] psW (cP 7) 2
      (psW.set 1 { cP 7 with agent_id := 2 })).1,
   (registry_invariant [cP 10, cP 20] psW (cP 7) 2
      (psW.set 1 { cP 7 with agent_id := 2 })).2
     (policyInv_initPolicies _) (by decide) (by decide) rfl⟩

/-! ### RewardViewSwap: the `process_fn` buffer-reward discipline -/

theorem procLoop_nil (hasRew : Bool) (saveRew : Rew) (batch : Batch)
    (indices : List Int) (buf : Buffer) :
    procLoop hasRew saveRew batch indices [] buf = .ok ([], buf) := rfl

theorem procLoop_cons_empty {hasRew : Bool} {saveRew : Rew} {batch : Batch}
    {indices : List Int} {p : SubPolicy} {ps : List SubPolicy} {buf : Buffer}
    (hai : (agentIndex batch.tags p.agent_id).isEmpty = true) :
    procLoop hasRew saveRew batch indices (p :: ps) buf
      = match procLoop hasRew saveRew batch indices ps buf with
        | .ok (rest, buf') => .ok ((agentKey p.agent_id, []) :: rest, buf')
        | .error e => .error e := by
  rw [procLoop, if_pos hai]

theorem procLoop_cons_swap_tmpfail {saveRew : Rew} {batch : Batch}
    {indices : List Int} {p : SubPolicy} {ps : List SubPolicy} {buf : Buffer}
    (hai : (agentIndex batch.tags p.agent_id).isEmpty = false)
    (hc : (batch.slice (agentIndex batch.tags p.agent_id)).rew.col
      (p.agent_id - 1) = none) :
    procLoop true saveRew batch indices (p :: ps) buf
      = .error ("IndexError", buf) := by
  rw [procLoop, if_neg (by simp [hai])]
  simp [hc]

theorem procLoop_cons_swap_buffail {saveRew : Rew} {batch : Batch}
    {indices : List Int} {p : SubPolicy} {ps : List SubPolicy} {buf : Buffer}
    {c : List Int}
    (hai : (agentIndex batch.tags p.agent_id).isEmpty = false)
    (hc : (batch.slice (agentIndex batch.tags p.agent_id)).rew.col
      (p.agent_id - 1) = some c)
    (hbc : saveRew.col (p.agent_id - 1) = none) :
    procLoop true saveRew batch indices (p :: ps) buf
      = .error ("IndexError", buf) := by
  rw [procLoop, if_neg (by simp [hai])]
  simp [hc, hbc]

theorem procLoop_cons_swap_go {saveRew : Rew} {batch : Batch}
    {indices : List Int} {p : SubPolicy} {ps : List SubPolicy} {buf : Buffer}
    {c bc : List Int}
    (hai : (agentIndex batch.tags p.agent_id).isEmpty = false)
    (hc : (batch.slice (agentIndex batch.tags p.agent_id)).rew.col
      (p.agent_id - 1) = some c)
    (hbc : saveRew.col (p.agent_id - 1) = some bc) :
    procLoop true saveRew batch indices (p :: ps) buf
      = match p.proc
          { batch.slice (agentIndex batch.tags p.agent_id) with
              rew := .arr1 c }
          { buf with rew := .arr1 bc }
          (sliceList indices (agentIndex batch.tags p.agent_id)) with
        | .error e => .error (e, { buf with rew := .arr1 bc })
        | .ok r =>
          match procLoop true saveRew batch indices ps
              { buf with rew := .arr1 bc } with
          | .ok (rest, buf2) =>
              .ok ((agentKey p.agent_id, r) :: rest, buf2)
          | .error e => .error e := by
  rw [procLoop, if_neg (by simp [hai])]
  simp [hc, hbc]

theorem procLoop_cons_noswap {saveRew : Rew} {batch : Batch}
    {indices : List Int} {p : SubPolicy} {ps : List SubPolicy} {buf : Buffer}
    (hai : (agentIndex batch.tags p.agent_id).isEmpty = false) :
    procLoop false saveRew batch indices (p :: ps) buf
      = match p.proc (batch.slice (agentIndex batch.tags p.agent_id)) buf
          (sliceList indices (agentIndex batch.tags p.agent_id)) with
        | .error e => .error (e, buf)
        | .ok r =>
          match procLoop false saveRew batch indices ps buf with
          | .ok (rest, buf'') => .ok ((agentKey p.agent_id, r) :: rest, buf'')
          | .error e => .error e := by
  rw [procLoop, if_neg (by simp [hai])]
  simp


/-- C2: if the buffer reward is a matrix and the full `process_fn` call
completes, the buffer reward afterwards is bit-identical to its value
before the call (the final unconditional restore), regardless of which
partitions were empty. -/
theorem process_fn_restores_rew {policies : List SubPolicy} {batch : Batch}
    {buffer : Buffer} {indices : List Int} {m : List (List Int)}
    {res : List (String × List Int)} {buf' : Buffer}
    (hm : buffer.rew = .arr2 m)
    (hok : process_fn policies batch buffer indices = .ok (res, buf')) :
    buf'.rew = .arr2 m := by
  simp only [process_fn, hm, Rew.isArr, if_true] at hok
  cases hpl : procLoop true (.arr2 m) batch indices policies
      { buffer with rew := .emptyB } with
  | error e => rw [hpl] at hok; cases hok
  | ok pr =>
    obtain ⟨r1, b1⟩ := pr
    rw [hpl] at hok
    simp only [Except.ok.injEq, Prod.mk.injEq] at hok
    rw [← hok.2]

theorem procLoop_error_rew_shape {saveRew : Rew} {batch : Batch}
    {indices : List Int} :
    ∀ {ps : List SubPolicy} {buf : Buffer} {e : String} {buf' : Buffer},
      (buf.rew = .emptyB ∨ ∃ v, buf.rew = .arr1 v) →
      procLoop true saveRew batch indices ps buf = .error (e, buf') →
      (buf'.rew = .emptyB ∨ ∃ v, buf'.rew = .arr1 v) := by
  intro ps
  induction ps with
  | nil =>
    intro buf e buf' _ h
    rw [procLoop_nil] at h
    cases h
  | cons p ps ih =>
    intro buf e buf' hbuf h
    by_cases hai : (agentIndex batch.tags p.agent_id).isEmpty
    · rw [procLoop_cons_empty hai] at h
      cases hrec : procLoop true saveRew batch indices ps buf with
      | ok pr => obtain ⟨r1, b1⟩ := pr; rw [hrec] at h; cases h
      | error e2 =>
        rw [hrec] at h
        injection h with h2
        rw [h2] at hrec
        exact ih hbuf hrec
    · have hai' : (agentIndex batch.tags p.agent_id).isEmpty = false := by
        simpa using hai
      cases hc : (batch.slice (agentIndex batch.tags p.agent_id)).rew.col
          (p.agent_id - 1) with
      | none =>
        rw [procLoop_cons_swap_tmpfail hai' hc] at h
        injection h with h2
        injection h2 with h2a h2b
        rw [← h2b]
        exact hbuf
      | some c =>
        cases hbc : saveRew.col (p.agent_id - 1) with
        | none =>
          rw [procLoop_cons_swap_buffail hai' hc hbc] at h
          injection h with h2
          injection h2 with h2a h2b
          rw [← h2b]
          exact hbuf
        | some bc =>
          rw [procLoop_cons_swap_go hai' hc hbc] at h
          cases hproc : p.proc
              { batch.slice (agentIndex batch.tags p.agent_id) with
                  rew := .arr1 c }
              { buf with rew := .arr1 bc }
              (sliceList indices (agentIndex batch.tags p.agent_id)) with
          | error e2 =>
            rw [hproc] at h
            injection h with h2
            injection h2 with h2a h2b
            rw [← h2b]
            exact Or.inr ⟨bc, rfl⟩
          | ok r =>
            rw [hproc] at h
            cases hrec : procLoop true saveRew batch indices ps
                { buf with rew := .arr1 bc } with
            | ok pr =>
              obtain ⟨r1, b1⟩ := pr
              rw [hrec] at h
              cases h
            | error e2 =>
              rw [hrec] at h
              injection h with h2
              rw [h2] at hrec
              exact ih (Or.inr ⟨bc, rfl⟩) hrec

/-- C3 (amended): a failure inside the per-agent loop propagates to the
caller, but the buffer's multi-dimensional reward is NOT restored before
propagation: at the moment the failure escapes, the buffer reward is the
empty placeholder or some agent's scalar column — never the original
matrix. -/
theorem process_fn_error_not_restored {policies : List SubPolicy}
    {batch : Batch} {buffer : Buffer} {indices : List Int}
    {m : List (List Int)} {e : String} {buf' : Buffer}
    (hm : buffer.rew = .arr2 m)
    (herr : process_fn policies batch buffer indices = .error (e, buf')) :
    buf'.rew ≠ .arr2 m ∧ (buf'.rew = .emptyB ∨ ∃ v, buf'.rew = .arr1 v) := by
  simp only [process_fn, hm, Rew.isArr, if_true] at herr
  cases hpl : procLoop true (.arr2 m) batch indices policies
      { buffer with rew := .emptyB } with
  | ok pr =>
    obtain ⟨r1, b1⟩ := pr
    rw [hpl] at herr
    cases herr
  | error e2 =>
    rw [hpl] at herr
    injection herr with h2
    rw [h2] at hpl
    have hshape := procLoop_error_rew_shape (Or.inl rfl) hpl
    refine ⟨?_, hshape⟩
    rcases hshape with h | ⟨v, hv⟩
    · rw [h]; intro hc; cases hc
    · rw [hv]; intro hc; cases hc

/-- C3 counterexample: with one registered policy whose `process_fn`
raises "boom", the manager propagates the error untranslated, but the
buffer reward at propagation is the scalar column `[5]`, not the original
matrix `[[5, 6]]` — restoration does not happen on the failure path. -/
theorem process_fn_error_counterexample :
    process_fn psF ⟨[1], .arr2 [[5, 6]]⟩ ⟨.arr2 [[5, 6]]⟩ [0]
        = .error ("boom", ⟨.arr1 [5]⟩) ∧
      Rew.arr1 [5] ≠ Rew.arr2 [[5, 6]] :=
  ⟨rfl, by decide⟩

/-- C3 witness for the amended theorem, at the counterexample's input. -/
theorem process_fn_error_not_restored_witness :
    ∃ eb : String × Buffer,
      process_fn psF ⟨[1], .arr2 [[5, 6]]⟩ ⟨.arr2 [[5, 6]]⟩ [0] = .error eb ∧
      eb.2.rew ≠ .arr2 [[5, 6]] ∧
      (eb.2.rew = .emptyB ∨ ∃ v, eb.2.rew = .arr1 v) :=
  ⟨("boom", ⟨.arr1 [5]⟩), rfl,
    @process_fn_error_not_restored psF ⟨[1], .arr2 [[5, 6]]⟩
      ⟨.arr2 [[5, 6]]⟩ [0] [[5, 6]] "boom" ⟨.arr1 [5]⟩ rfl rfl⟩

/-- C2 witness: a concrete two-agent run with a 2x2 reward matrix; the
full call completes and the buffer reward is bit-identical to its value
before the call. -/
theorem process_fn_restores_rew_witness :
    ∃ res buf', process_fn psW batchR bufR [7, 8] = .ok (res, buf') ∧
      buf'.rew = .arr2 [[3, 4], [5, 6]] :=
  ⟨[("agent_1", [11, 7]), ("agent_2", [22, 8])], ⟨.arr2 [[3, 4], [5, 6]]⟩,
    rfl,
    @process_fn_restores_rew psW batchR bufR [7, 8] [[3, 4], [5, 6]]
      [("agent_1", [11, 7]), ("agent_2", [22, 8])]
      ⟨.arr2 [[3, 4], [5, 6]]⟩ rfl rfl⟩

/-! ### `process_fn` result structure (keyed entries) -/

theorem procLoop_ok_shape {hasRew : Bool} {saveRew : Rew} {batch : Batch}
    {indices : List Int} {p : SubPolicy} {ps : List SubPolicy} {buf : Buffer}
    {res : List (String × List Int)} {buf' : Buffer}
    (h : procLoop hasRew saveRew batch indices (p :: ps) buf
      = .ok (res, buf')) :
    ∃ entry rest buf0, res = (agentKey p.agent_id, entry) :: rest ∧
      procLoop hasRew saveRew batch indices ps buf0 = .ok (rest, buf') ∧
      ((agentIndex batch.tags p.agent_id).isEmpty = true → entry = []) := by
  by_cases hai : (agentIndex batch.tags p.agent_id).isEmpty
  · rw [procLoop_cons_empty hai] at h
    cases hrec : procLoop hasRew saveRew batch indices ps buf with
    | error e2 => rw [hrec] at h; cases h
    | ok pr =>
      obtain ⟨rest, b1⟩ := pr
      rw [hrec] at h
      simp only [Except.ok.injEq, Prod.mk.injEq] at h
      exact ⟨[], rest, buf, by rw [← h.1], by rw [hrec, h.2], fun _ => rfl⟩
  · have hai' : (agentIndex batch.tags p.agent_id).isEmpty = false := by
      simpa using hai
    cases hasRew with
    | true =>
      cases hc : (batch.slice (agentIndex batch.tags p.agent_id)).rew.col
          (p.agent_id - 1) with
      | none => rw [procLoop_cons_swap_tmpfail hai' hc] at h; cases h
      | some c =>
        cases hbc : saveRew.col (p.agent_id - 1) with
        | none => rw [procLoop_cons_swap_buffail hai' hc hbc] at h; cases h
        | some bc =>
          rw [procLoop_cons_swap_go hai' hc hbc] at h
          cases hproc : p.proc
              { batch.slice (agentIndex batch.tags p.agent_id) with
                  rew := .arr1 c }
              { buf with rew := .arr1 bc }
              (sliceList indices (agentIndex batch.tags p.agent_id)) with
          | error e2 => rw [hproc] at h; cases h
          | ok r =>
            rw [hproc] at h
            cases hrec : procLoop true saveRew batch indices ps
                { buf with rew := .arr1 bc } with
            | error e2 => rw [hrec] at h; cases h
            | ok pr =>
              obtain ⟨rest, b1⟩ := pr
              rw [hrec] at h
              simp only [Except.ok.injEq, Prod.mk.injEq] at h
              refine ⟨r, rest, { buf with rew := .arr1 bc },
                by rw [← h.1], by rw [hrec, h.2], ?_⟩
              intro hempty
              rw [hempty] at hai'
              cases hai'
    | false =>
      rw [procLoop_cons_noswap hai'] at h
      cases hproc : p.proc (batch.slice (agentIndex batch.tags p.agent_id))
          buf (sliceList indices (agentIndex batch.tags p.agent_id)) with
      | error e2 => rw [hproc] at h; cases h
      | ok r =>
        rw [hproc] at h
        cases hrec : procLoop false saveRew batch indices ps buf with
        | error e2 => rw [hrec] at h; cases h
        | ok pr =>
          obtain ⟨rest, b1⟩ := pr
          rw [hrec] at h
          simp only [Except.ok.injEq, Prod.mk.injEq] at h
          refine ⟨r, rest, buf, by rw [← h.1], by rw [hrec, h.2], ?_⟩
          intro hempty
          rw [hempty] at hai'
          cases hai'

theorem procLoop_ok_entries {hasRew : Bool} {saveRew : Rew} {batch : Batch}
    {indices : List Int} :
    ∀ {ps : List SubPolicy} {buf : Buffer} {res : List (String × List Int)}
      {buf' : Buffer},
      procLoop hasRew saveRew batch indices ps buf = .ok (res, buf') →
      res.length = ps.length ∧
      ∀ k (hk : k < ps.length), ∃ entry,
        res.get? k = some (agentKey (ps.get ⟨k, hk⟩).agent_id, entry) ∧
        ((agentIndex batch.tags (ps.get ⟨k, hk⟩).agent_id).isEmpty = true
          → entry = []) := by
  intro ps
  induction ps with
  | nil =>
    intro buf res buf' h
    rw [procLoop_nil] at h
    simp only [Except.ok.injEq, Prod.mk.injEq] at h
    rw [← h.1]
    exact ⟨rfl, fun k hk => by simp at hk⟩
  | cons p ps ih =>
    intro buf res buf' h
    obtain ⟨entry, rest, buf0, hres, hrec, hemp⟩ := procLoop_ok_shape h
    obtain ⟨hlen, hks⟩ := ih hrec
    subst hres
    refine ⟨by simp [hlen], ?_⟩
    intro k hk
    cases k with
    | zero => exact ⟨entry, rfl, hemp⟩
    | succ k =>
      obtain ⟨e2, hg, he2⟩ := hks k (by simpa using hk)
      exact ⟨e2, by simpa using hg, by simpa using he2⟩


theorem procLoop_set_proc {hasRew : Bool} {saveRew : Rew} {batch : Batch}
    {indices : List Int} :
    ∀ {ps : List SubPolicy} {k : Nat} (hk : k < ps.length)
      (g : Batch → Buffer → List Int → Except String (List Int))
      {buf : Buffer},
      (agentIndex batch.tags (ps.get ⟨k, hk⟩).agent_id).isEmpty = true →
      procLoop hasRew saveRew batch indices
          (ps.set k { ps.get ⟨k, hk⟩ with proc := g }) buf
        = procLoop hasRew saveRew batch indices ps buf := by
  intro ps
  induction ps with
  | nil => intro k hk; simp at hk
  | cons p ps ih =>
    intro k hk g buf hempty
    cases k with
    | zero =>
      simp only [List.set_cons_zero, List.get_eq_getElem,
        List.getElem_cons_zero] at hempty ⊢
      rw [@procLoop_cons_empty hasRew saveRew batch indices
          { p with proc := g } ps buf hempty,
        @procLoop_cons_empty hasRew saveRew batch indices p ps buf hempty]
    | succ k =>
      have hk' : k < ps.length := by simpa using hk
      have hempty' :
          (agentIndex batch.tags (ps.get ⟨k, hk'⟩).agent_id).isEmpty
            = true := by
        simpa using hempty
      show procLoop hasRew saveRew batch indices
          (p :: ps.set k { ps.get ⟨k, hk'⟩ with proc := g }) buf
        = procLoop hasRew saveRew batch indices (p :: ps) buf
      by_cases hai : (agentIndex batch.tags p.agent_id).isEmpty
      · rw [@procLoop_cons_empty hasRew saveRew batch indices p
            (ps.set k { ps.get ⟨k, hk'⟩ with proc := g }) buf hai,
          @procLoop_cons_empty hasRew saveRew batch indices p ps buf hai,
          ih hk' g hempty']
      · have hai' : (agentIndex batch.tags p.agent_id).isEmpty = false := by
          simpa using hai
        cases hasRew with
        | true =>
          cases hc : (batch.slice (agentIndex batch.tags p.agent_id)).rew.col
              (p.agent_id - 1) with
          | none =>
            rw [@procLoop_cons_swap_tmpfail saveRew batch indices p
                (ps.set k { ps.get ⟨k, hk'⟩ with proc := g }) buf hai' hc,
              @procLoop_cons_swap_tmpfail saveRew batch indices p ps buf
                hai' hc]
          | some c =>
            cases hbc : saveRew.col (p.agent_id - 1) with
            | none =>
              rw [@procLoop_cons_swap_buffail saveRew batch indices p
                  (ps.set k { ps.get ⟨k, hk'⟩ with proc := g }) buf c
                  hai' hc hbc,
                @procLoop_cons_swap_buffail saveRew batch indices p ps buf c
                  hai' hc hbc]
            | some bc =>
              rw [@procLoop_cons_swap_go saveRew batch indices p
                  (ps.set k { ps.get ⟨k, hk'⟩ with proc := g }) buf c bc
                  hai' hc hbc,
                @procLoop_cons_swap_go saveRew batch indices p ps buf c bc
                  hai' hc hbc,
                ih hk' g hempty']
        | false =>
          rw [@procLoop_cons_noswap saveRew batch indices p
              (ps.set k { ps.get ⟨k, hk'⟩ with proc := g }) buf hai',
            @procLoop_cons_noswap saveRew batch indices p ps buf hai',
            ih hk' g hempty']

/-- C8: a successful `process_fn` returns one entry per registered
policy, in registry order, under the key derived from its agent id; a
policy with an empty partition gets an explicit empty entry, and its
`process_fn` capability is never invoked (replacing it cannot change the
result). -/
theorem process_fn_keyed_entries (policies : List SubPolicy) (batch : Batch)
    (buffer : Buffer) (indices : List Int) :
    (∀ res buf', process_fn policies batch buffer indices = .ok (res, buf') →
      res.length = policies.length ∧
      ∀ k (hk : k < policies.length), ∃ entry,
        res.get? k = some (agentKey (policies.get ⟨k, hk⟩).agent_id, entry) ∧
        (agentIndex batch.tags (policies.get ⟨k, hk⟩).agent_id = []
          → entry = [])) ∧
    (∀ k (hk : k < policies.length)
      (g : Batch → Buffer → List Int → Except String (List Int)),
      agentIndex batch.tags (policies.get ⟨k, hk⟩).agent_id = [] →
      process_fn (policies.set k { policies.get ⟨k, hk⟩ with proc := g })
          batch buffer indices
        = process_fn policies batch buffer indices) := by
  constructor
  · intro res buf' hok
    simp only [process_fn] at hok
    cases hpl : procLoop buffer.rew.isArr buffer.rew batch indices policies
        (if buffer.rew.isArr then { buffer with rew := .emptyB }
         else buffer) with
    | error e2 => rw [hpl] at hok; cases hok
    | ok pr =>
      obtain ⟨r1, b1⟩ := pr
      rw [hpl] at hok
      simp only [Except.ok.injEq, Prod.mk.injEq] at hok
      obtain ⟨hlen, hks⟩ := procLoop_ok_entries hpl
      rw [← hok.1]
      refine ⟨hlen, ?_⟩
      intro k hk
      obtain ⟨entry, hg, hemp⟩ := hks k hk
      exact ⟨entry, hg, fun he => hemp (by rw [he]; rfl)⟩
  · intro k hk g hempty
    simp only [process_fn]
    rw [procLoop_set_proc hk g (by rw [hempty]; rfl)]

/-- C8 witness: two registered policies, a batch with only an agent-1
transition; the result has an explicit empty entry under agent 2's key,
and replacing agent 2's `process_fn` capability leaves the result
untouched. -/
theorem process_fn_keyed_entries_witness :
    (resW8.length = psW.length ∧
      ∀ k (hk : k < psW.length), ∃ entry,
        resW8.get? k = some (agentKey (psW.get ⟨k, hk⟩).agent_id, entry) ∧
        (agentIndex (Batch.mk [1] .emptyB).tags (psW.get ⟨k, hk⟩).agent_id
            = [] → entry = [])) ∧
    process_fn (psW.set 1 { psW.get ⟨1, of_decide_eq_true rfl⟩ with
        proc := fun _ _ _ => .error "x" }) ⟨[1], .emptyB⟩ ⟨.emptyB⟩ [0]
      = process_fn psW ⟨[1], .emptyB⟩ ⟨.emptyB⟩ [0] :=
⟨(process_fn_keyed_entries psW ⟨[1], .emptyB⟩ ⟨.emptyB⟩ [0]).1
      resW8 ⟨.emptyB⟩ rfl,
   (process_fn_keyed_entries psW ⟨[1], .emptyB⟩ ⟨.emptyB⟩ [0]).2
      1 (of_decide_eq_true rfl) (fun _ _ _ => .error "x") rfl⟩

/-! ### `learn`: keyed metric aggregation -/

theorem learnM_set_learnFn {input : List (String × List Int)} :
    ∀ {ps : List SubPolicy} {k : Nat} (hk : k < ps.length)
      (g : List Int → List (String × Int)),
      input.lookup (agentKey (ps.get ⟨k, hk⟩).agent_id) = some [] →
      learnM (ps.set k { ps.get ⟨k, hk⟩ with learnFn := g }) input
        = learnM ps input := by
  intro ps
  induction ps with
  | nil => intro k hk; simp at hk
  | cons p ps ih =>
    intro k hk g hke
    cases k with
    | zero =>
      simp only [List.set_cons_zero, List.get_eq_getElem,
        List.getElem_cons_zero] at hke ⊢
      rw [learnM, learnM, hke]
      cases learnM ps input with
      | none => rfl
      | some rest => rfl
    | succ k =>
      have hk' : k < ps.length := by simpa using hk
      have hke' : input.lookup (agentKey (ps.get ⟨k, hk'⟩).agent_id)
          = some [] := by simpa using hke
      show learnM (p :: ps.set k { ps.get ⟨k, hk'⟩ with learnFn := g }) input
        = learnM (p :: ps) input
      rw [learnM, learnM, ih hk' g hke']

theorem learnM_spec {input : List (String × List Int)} :
    ∀ {ps : List SubPolicy},
      (∀ p ∈ ps, (input.lookup (agentKey p.agent_id)).isSome) →
      ∃ res, learnM ps input = some res ∧
        (∀ p ∈ ps, ∀ d, input.lookup (agentKey p.agent_id) = some d →
          d ≠ [] → ∀ kv ∈ p.learnFn d,
            (agentKey p.agent_id ++ "/" ++ kv.1, kv.2) ∈ res) ∧
        (∀ sv ∈ res, ∃ p ∈ ps, ∃ d,
          input.lookup (agentKey p.agent_id) = some d ∧ d ≠ [] ∧
          ∃ kv ∈ p.learnFn d,
            sv = (agentKey p.agent_id ++ "/" ++ kv.1, kv.2)) := by
  intro ps
  induction ps with
  | nil =>
    intro _
    refine ⟨[], rfl, ?_, ?_⟩
    · intro p hp; simp at hp
    · intro sv hsv; simp at hsv
  | cons p ps ih =>
    intro hlook
    obtain ⟨d, hd⟩ := Option.isSome_iff_exists.1 (hlook p (by simp))
    obtain ⟨rest, hrest, hcomp, horig⟩ :=
      ih (fun q hq => hlook q (by simp [hq]))
    by_cases hde : d.isEmpty
    · have hdnil : d = [] := by simpa using hde
      refine ⟨rest, ?_, ?_, ?_⟩
      · rw [learnM, hd, hrest]
        simp [hde]
      · intro q hq d' hd' hne kv hkv
        rcases List.mem_cons.1 hq with hqe | hqe
        · subst hqe
          rw [hd] at hd'
          injection hd' with h2
          rw [← h2, hdnil] at hne
          exact absurd rfl hne
        · exact hcomp q hqe d' hd' hne kv hkv
      · intro sv hsv
        obtain ⟨q, hq, rest'⟩ := horig sv hsv
        exact ⟨q, by simp [hq], rest'⟩
    · refine ⟨(p.learnFn d).map
          (fun kv => (agentKey p.agent_id ++ "/" ++ kv.1, kv.2)) ++ rest,
          ?_, ?_, ?_⟩
      · rw [learnM, hd, hrest]
        simp [hde]
      · intro q hq d' hd' hne kv hkv
        rcases List.mem_cons.1 hq with hqe | hqe
        · subst hqe
          rw [hd] at hd'
          injection hd' with h2
          subst h2
          exact List.mem_append_left _ (List.mem_map.2 ⟨kv, hkv, rfl⟩)
        · exact List.mem_append_right _ (hcomp q hqe d' hd' hne kv hkv)
      · intro sv hsv
        rcases List.mem_append.1 hsv with hh | hh
        · obtain ⟨kv, hkv, hkv2⟩ := List.mem_map.1 hh
          refine ⟨p, by simp, d, hd, by simpa using hde, kv, hkv, hkv2.symm⟩
        · obtain ⟨q, hq, rest'⟩ := horig sv hh
          exact ⟨q, by simp [hq], rest'⟩


/-- C7 (amended): `learn` re-keys each metric of a policy with a
non-empty entry as `"agent_<agentId>/<metricName>"` (not
`"<agentId>/<metricName>"`), every output key originates from some policy
with a non-empty entry, and a policy whose entry is empty contributes
nothing — its `learn` capability is never invoked. -/
theorem learn_rekeyed (policies : List SubPolicy)
    (input : List (String × List Int))
    (hlook : ∀ p ∈ policies, (input.lookup (agentKey p.agent_id)).isSome) :
    (∃ res, learnM policies input = some res ∧
      (∀ p ∈ policies, ∀ d, input.lookup (agentKey p.agent_id) = some d →
        d ≠ [] → ∀ kv ∈ p.learnFn d,
          (agentKey p.agent_id ++ "/" ++ kv.1, kv.2) ∈ res) ∧
      (∀ sv ∈ res, ∃ p ∈ policies, ∃ d,
        input.lookup (agentKey p.agent_id) = some d ∧ d ≠ [] ∧
        ∃ kv ∈ p.learnFn d,
          sv = (agentKey p.agent_id ++ "/" ++ kv.1, kv.2))) ∧
    (∀ k (hk : k < policies.length) (g : List Int → List (String × Int)),
      input.lookup (agentKey (policies.get ⟨k, hk⟩).agent_id) = some [] →
      learnM (policies.set k { policies.get ⟨k, hk⟩ with learnFn := g })
          input
        = learnM policies input) :=
  ⟨learnM_spec hlook, fun _ hk g h => learnM_set_learnFn hk g h⟩

/-- C7 counterexample: the emitted key is `"agent_1/loss"`, so the
claimed key `"1/loss"` (the `"<agentId>/<metricName>"` format) is absent
from the output. -/
theorem learn_key_format_counterexample :
    learnM psOne [("agent_1", [5])] = some [("agent_1/loss", 15)] ∧
    ("1/loss" : String)
      ∉ ([(("agent_1/loss" : String), (15 : Int))].map Prod.fst) ∧
    ("1/loss" : String) ≠ "agent_1/loss" :=
  ⟨rfl, by decide, by decide⟩

/-- C7 witness: two registered policies, agent 2's entry empty — its
metrics are absent and replacing its `learn` capability changes
nothing. -/
theorem learn_rekeyed_witness :
    (∃ res, learnM psW inputW = some res ∧
      (∀ p ∈ psW, ∀ d, inputW.lookup (agentKey p.agent_id) = some d →
        d ≠ [] → ∀ kv ∈ p.learnFn d,
          (agentKey p.agent_id ++ "/" ++ kv.1, kv.2) ∈ res) ∧
      (∀ sv ∈ res, ∃ p ∈ psW, ∃ d,
        inputW.lookup (agentKey p.agent_id) = some d ∧ d ≠ [] ∧
        ∃ kv ∈ p.learnFn d,
          sv = (agentKey p.agent_id ++ "/" ++ kv.1, kv.2))) ∧
    learnM (psW.set 1 { psW.get ⟨1, of_decide_eq_true rfl⟩ with
        learnFn := fun _ => [("zzz", 0)] }) inputW
      = learnM psW inputW :=
  ⟨(learn_rekeyed psW inputW (by decide)).1,
   (learn_rekeyed psW inputW (by decide)).2 1 (of_decide_eq_true rfl)
     (fun _ => [("zzz", 0)]) rfl⟩

/-! ### `exploration_noise`: in-place per-partition rewrite -/

theorem sliceList_congr {a b : List α} : ∀ {idx : List Nat},
    (∀ i ∈ idx, a.get? i = b.get? i) → sliceList a idx = sliceList b idx := by
  intro idx
  induction idx with
  | nil => intro _; rfl
  | cons i is ih =>
    intro h
    rw [sliceList, sliceList, List.filterMap_cons, List.filterMap_cons,
      h i (by simp)]
    have := ih (fun j hj => h j (by simp [hj]))
    rw [sliceList, sliceList] at this
    rw [this]

theorem explLoop_spec {batch : Batch} :
    ∀ {ps : List SubPolicy} {act : List Int},
      act.length = batch.tags.length →
      (∀ p ∈ ps, ∀ a b, ((p.expl a b)).length = a.length) →
      ps.Pairwise (fun p q => p.agent_id ≠ q.agent_id) →
      ∃ act', explLoop batch ps act = some act' ∧
        act'.length = act.length ∧
        (∀ p ∈ ps, ∀ j (hj : j < (agentIndex batch.tags p.agent_id).length),
          act'.get? ((agentIndex batch.tags p.agent_id).get ⟨j, hj⟩)
            = ((p.expl (sliceList act (agentIndex batch.tags p.agent_id))
                (batch.slice (agentIndex batch.tags p.agent_id)))).get? j) ∧
        (∀ i, (∀ p ∈ ps, i ∉ agentIndex batch.tags p.agent_id) →
          act'.get? i = act.get? i) := by
  intro ps
  induction ps with
  | nil =>
    intro act _ _ _
    exact ⟨act, rfl, rfl, fun p hp => by simp at hp, fun i _ => rfl⟩
  | cons p ps ih =>
    intro act hlen hexpl hpw
    have hpw_head := (List.pairwise_cons.1 hpw).1
    have hpw_tail := (List.pairwise_cons.1 hpw).2
    by_cases hai : (agentIndex batch.tags p.agent_id).isEmpty
    · have hainil : agentIndex batch.tags p.agent_id = [] := by
        simpa using hai
      obtain ⟨act', hloop, hlen', hvals', hframe'⟩ :=
        ih hlen (fun q hq a b => hexpl q (by simp [hq]) a b) hpw_tail
      refine ⟨act', ?_, hlen', ?_, ?_⟩
      · rw [explLoop, if_pos hai]
        exact hloop
      · intro q hq j hj
        rcases List.mem_cons.1 hq with hqe | hqe
        · subst hqe
          rw [hainil] at hj
          simp at hj
        · exact hvals' q hqe j hj
      · intro i hi
        exact hframe' i (fun q hq => hi q (by simp [hq]))
    · have hai' : (agentIndex batch.tags p.agent_id).isEmpty = false := by
        simpa using hai
      have hbound : ∀ i ∈ agentIndex batch.tags p.agent_id,
          i < act.length := by
        intro i hi
        rw [hlen]
        exact agentIndex_lt hi
      have hvlen : (agentIndex batch.tags p.agent_id).length
          = ((p.expl (sliceList act (agentIndex batch.tags p.agent_id))
              (batch.slice (agentIndex batch.tags p.agent_id)))).length := by
        rw [hexpl p (by simp), sliceList_length hbound]
      obtain ⟨act1, hsc, hlen1, hvals1, hframe1⟩ :=
        scatter_spec hbound hvlen (agentIndex_nodup _ _)
      obtain ⟨act', hloop, hlen', hvals', hframe'⟩ :=
        ih (by rw [hlen1, hlen])
          (fun q hq a b => hexpl q (by simp [hq]) a b) hpw_tail
      have hdisj_head : ∀ q ∈ ps, ∀ i, i ∈ agentIndex batch.tags p.agent_id
          → i ∉ agentIndex batch.tags q.agent_id :=
        fun q hq i hi => agentIndex_disjoint (hpw_head q hq) hi
      refine ⟨act', ?_, by rw [hlen', hlen1], ?_, ?_⟩
      · rw [explLoop, if_neg (by simp [hai']), hsc]
        exact hloop
      · intro q hq j hj
        rcases List.mem_cons.1 hq with hqe | hqe
        · subst hqe
          have hmem : (agentIndex batch.tags q.agent_id).get ⟨j, hj⟩
              ∈ agentIndex batch.tags q.agent_id := List.get_mem _ _ _
          have hnotin : ∀ f ∈ ps, (agentIndex batch.tags q.agent_id).get
              ⟨j, hj⟩ ∉ agentIndex batch.tags f.agent_id :=
            fun f hf => hdisj_head f hf _ hmem
          rw [hframe' _ hnotin]
          exact hvals1 j hj
        · have hcongr : sliceList act1 (agentIndex batch.tags q.agent_id)
              = sliceList act (agentIndex batch.tags q.agent_id) := by
            apply sliceList_congr
            intro i hi
            apply hframe1
            intro hc
            exact hdisj_head q hqe i hc hi
          have := hvals' q hqe j hj
          rw [hcongr] at this
          exact this
      · intro i hi
        rw [hframe' i (fun q hq => hi q (by simp [hq]))]
        exact hframe1 i (hi p (by simp))


/-- C9: `exploration_noise` writes each non-empty partition's
(possibly modified) per-agent action values back into the same original
positions of the caller's action container, skips empty partitions, and
leaves every position outside all partitions at its original value; the
returned container has the caller's length. -/
theorem exploration_noise_spec (policies : List SubPolicy) (act : List Int)
    (batch : Batch)
    (hinv : PolicyInv policies)
    (hactlen : act.length = batch.tags.length)
    (hexpl : ∀ p ∈ policies, ∀ a b, ((p.expl a b)).length = a.length) :
    ∃ act', exploration_noise policies act batch = some act' ∧
      act'.length = act.length ∧
      (∀ p ∈ policies,
        ∀ j (hj : j < (agentIndex batch.tags p.agent_id).length),
          act'.get? ((agentIndex batch.tags p.agent_id).get ⟨j, hj⟩)
            = ((p.expl (sliceList act (agentIndex batch.tags p.agent_id))
                (batch.slice (agentIndex batch.tags p.agent_id)))).get? j) ∧
      (∀ i, (∀ p ∈ policies, i ∉ agentIndex batch.tags p.agent_id) →
        act'.get? i = act.get? i) :=
  explLoop_spec hactlen hexpl (policyInv_pairwise_ne hinv)

/-- C9 witness: two registered policies on tags `[1, 2, 1]` with actions
`[100, 200, 300]`. -/
theorem exploration_noise_spec_witness :
    ∃ act', exploration_noise psW [100, 200, 300] ⟨[1, 2, 1], .emptyB⟩
        = some act' ∧
      act'.length = ([100, 200, 300] : List Int).length ∧
      (∀ p ∈ psW,
        ∀ j (hj : j < (agentIndex (Batch.mk [1, 2, 1] .emptyB).tags
            p.agent_id).length),
          act'.get? ((agentIndex (Batch.mk [1, 2, 1] .emptyB).tags
              p.agent_id).get ⟨j, hj⟩)
            = ((p.expl (sliceList [100, 200, 300]
                  (agentIndex (Batch.mk [1, 2, 1] .emptyB).tags p.agent_id))
                ((Batch.mk [1, 2, 1] .emptyB).slice
                  (agentIndex (Batch.mk [1, 2, 1] .emptyB).tags
                    p.agent_id)))).get? j) ∧
      (∀ i, (∀ p ∈ psW,
          i ∉ agentIndex (Batch.mk [1, 2, 1] .emptyB).tags p.agent_id) →
        act'.get? i = ([100, 200, 300] : List Int).get? i) :=
  exploration_noise_spec psW [100, 200, 300] ⟨[1, 2, 1], .emptyB⟩
    (policyInv_initPolicies _)
    rfl
    (by
      intro p hp a b
      have hps : psW = [{ cP 10 with agent_id := 1 },
          { cP 20 with agent_id := 2 }] := rfl
      rw [hps] at hp
      rcases List.mem_cons.1 hp with h | h
      · subst h; simp [cP]
      · rcases List.mem_cons.1 h with h2 | h2
        · subst h2; simp [cP]
        · simp at h2)

end MAPolicy
